import Mathlib

/-!
A shallow embedding of the `palex` command-line tokenizer
(`src/crates/palex/src/input.rs` and `src/crates/palex/src/part.rs`),
together with theorems about its buffering and offset scheme.

Rust strings are modelled as `List Char`; byte offsets and byte lengths
become element offsets and lengths. A Rust `panic!` (including the implicit
panic of an out-of-range string-slice index) is modelled by returning
`none` from the corresponding partial operation. The pull-based argument
source (an iterator of owned strings) is modelled as a `List (List Char)`.
-/

namespace Palex

/-- The kind of the current token (`token_kind.rs`). -/
inductive TokenKind where
  | NoDash
  | OneDash
  | TwoDashes
  | AfterOneDash
  | AfterEquals
deriving DecidableEq, Repr

/-- Does `s` start with the pattern `t`? Mirrors Rust `str::starts_with`. -/
def startsWithL : List Char → List Char → Bool
  | _, [] => true
  | [], _ :: _ => false
  | a :: as, b :: bs => a == b && startsWithL as bs

/-- The slice `buf[a .. a + len]` of a buffer. -/
def sl (buf : List Char) (a len : Nat) : List Char :=
  (buf.drop a).take len

/-- The tokenizer state (`struct ArgsInput` in `input.rs`): the cursor
`current` is `(contentStart, rawStart, kind)`, `iter` is the remaining raw
source, `buf` the append-only buffer. -/
structure ArgsInput where
  current : Option (Nat × Nat × TokenKind)
  iter : List (List Char)
  buf : List Char
  ignore_dashes : Bool
deriving DecidableEq, Repr

/-- `ArgsInput::trim_leading_dashes`: classify a freshly appended raw
argument `string` that starts at buffer offset `current`. -/
def trim_leading_dashes (ignore : Bool) (string : List Char) (current : Nat) :
    Nat × Nat × TokenKind :=
  if ignore then
    (current, current, TokenKind.NoDash)
  else if startsWithL string ['-', '-'] then
    (current + 2, current, TokenKind.TwoDashes)
  else if startsWithL string ['-'] then
    (current + 1, current, TokenKind.OneDash)
  else
    (current, current, TokenKind.NoDash)

/-- `ArgsInput::trim_equals`: re-classify the cursor at offset `current`
after a partial consumption. In the `OneDash`, `TwoDashes` and
`AfterOneDash` arms the Rust code slices `self.buf[current..]`, which
panics when `current` exceeds the buffer length; that panic is modelled
by `none`. -/
def trim_equals (buf : List Char) (current : Nat) (kind : TokenKind) :
    Option (Nat × Nat × TokenKind) :=
  match kind with
  | TokenKind.NoDash => some (current, current, TokenKind.NoDash)
  | TokenKind.OneDash =>
    if buf.length < current then none
    else if (buf.drop current).head? = some '=' then
      some (current + 1, current + 1, TokenKind.AfterEquals)
    else
      some (current, current, TokenKind.AfterOneDash)
  | TokenKind.TwoDashes =>
    if buf.length < current then none
    else if (buf.drop current).head? = some '=' then
      some (current + 1, current + 1, TokenKind.AfterEquals)
    else
      some (current, current, TokenKind.TwoDashes)
  | TokenKind.AfterOneDash =>
    if buf.length < current then none
    else if (buf.drop current).head? = some '=' then
      some (current + 1, current + 1, TokenKind.AfterEquals)
    else
      some (current, current, TokenKind.AfterOneDash)
  | TokenKind.AfterEquals => some (current, current, TokenKind.AfterEquals)

/-- `ArgsInput::new`: pull the first raw argument eagerly. -/
def ArgsInput.new (args : List (List Char)) : ArgsInput :=
  match args with
  | buf :: rest =>
    { current := some (trim_leading_dashes false buf 0)
      iter := rest
      buf := buf
      ignore_dashes := false }
  | [] =>
    { current := none, iter := [], buf := [], ignore_dashes := false }

/-- `ArgsInput::current`: the dash-stripped view of the current token and
its kind. Named `currentView` because `current` is the field name. -/
def ArgsInput.currentView (inp : ArgsInput) : Option (List Char × TokenKind) :=
  match inp.current with
  | some (i, _, kind) => some (inp.buf.drop i, kind)
  | none => none

/-- `ArgsInput::current_str_with_leading_dashes`: the raw view including
leading dashes. -/
def ArgsInput.current_str_with_leading_dashes (inp : ArgsInput) : Option (List Char) :=
  match inp.current with
  | some (_, i, _) => some (inp.buf.drop i)
  | none => none

/-- `ArgsInput::bump`: advance the cursor by `len` bytes measured from
`contentStart`. `none` models the two `panic!` calls of the Rust code and
the slice panic inside `trim_equals`. The returned slice is read from the
(possibly re-allocated) buffer after any refill, as in the source. -/
def ArgsInput.bump (inp : ArgsInput) (len : Nat) :
    Option (ArgsInput × List Char) :=
  match inp.current with
  | some (current, _, kind) =>
    if len > inp.buf.length - current then none
    else if inp.buf.length - current = len then
      match inp.iter with
      | s :: rest =>
        some ({ current := some (trim_leading_dashes inp.ignore_dashes s (current + len))
                iter := rest
                buf := inp.buf ++ s
                ignore_dashes := inp.ignore_dashes },
              sl (inp.buf ++ s) current len)
      | [] =>
        some ({ current := none
                iter := inp.iter
                buf := inp.buf
                ignore_dashes := inp.ignore_dashes },
              sl inp.buf current len)
    else
      match trim_equals inp.buf (current + len) kind with
      | some c =>
        some ({ current := some c
                iter := inp.iter
                buf := inp.buf
                ignore_dashes := inp.ignore_dashes },
              sl inp.buf current len)
      | none => none
  | none => none

/-- `ArgsInput::bump_with_leading_dashes`: advance by `len` bytes measured
from `rawStart`. Both offsets advance by `len`; the refill re-classifies at
the new `rawStart`, the partial branch re-runs `trim_equals` at the new
`contentStart`. -/
def ArgsInput.bump_with_leading_dashes (inp : ArgsInput) (len : Nat) :
    Option (ArgsInput × List Char) :=
  match inp.current with
  | some (current, cwd, kind) =>
    if len > inp.buf.length - cwd then none
    else if inp.buf.length - cwd = len then
      match inp.iter with
      | s :: rest =>
        some ({ current := some (trim_leading_dashes inp.ignore_dashes s (cwd + len))
                iter := rest
                buf := inp.buf ++ s
                ignore_dashes := inp.ignore_dashes },
              sl (inp.buf ++ s) cwd len)
      | [] =>
        some ({ current := none
                iter := inp.iter
                buf := inp.buf
                ignore_dashes := inp.ignore_dashes },
              sl inp.buf cwd len)
    else
      match trim_equals inp.buf (current + len) kind with
      | some c =>
        some ({ current := some c
                iter := inp.iter
                buf := inp.buf
                ignore_dashes := inp.ignore_dashes },
              sl inp.buf cwd len)
      | none => none
  | none => none

/-- `ArgsInput::set_ignore_dashes`: set the parsing mode; re-classify the
current token. -/
def ArgsInput.set_ignore_dashes (inp : ArgsInput) (ignore : Bool) : ArgsInput :=
  match inp.current with
  | some (current, cwd, _) =>
    if ignore then
      { inp with ignore_dashes := ignore
                 current := some (cwd, cwd, TokenKind.NoDash) }
    else
      { inp with ignore_dashes := ignore
                 current := some (trim_leading_dashes ignore (inp.buf.drop current) cwd) }
  | none => { inp with ignore_dashes := ignore }

/-- `ArgsInput::is_empty`. -/
def ArgsInput.is_empty (inp : ArgsInput) : Bool :=
  inp.currentView.isNone

/-- `ArgsInput::eat_no_dash`. The pair is `(state after the call, result)`;
the outer `Option` models a panic, which never fires here. -/
def ArgsInput.eat_no_dash (inp : ArgsInput) (token : List Char) :
    Option (ArgsInput × Option (List Char)) :=
  match inp.currentView with
  | some (s, TokenKind.NoDash) =>
    if token = s then
      match inp.bump token.length with
      | some (inp2, out) => some (inp2, some out)
      | none => none
    else some (inp, none)
  | _ => some (inp, none)

/-- `ArgsInput::eat_one_dash`. -/
def ArgsInput.eat_one_dash (inp : ArgsInput) (token : List Char) :
    Option (ArgsInput × Option (List Char)) :=
  match inp.currentView with
  | some (s, TokenKind.OneDash) | some (s, TokenKind.AfterOneDash) =>
    if startsWithL s token then
      match inp.bump token.length with
      | some (inp2, out) => some (inp2, some out)
      | none => none
    else some (inp, none)
  | _ => some (inp, none)

/-- `ArgsInput::eat_two_dashes`: the view must start with `token`, and the
remainder must be empty or start with an equals sign. -/
def ArgsInput.eat_two_dashes (inp : ArgsInput) (token : List Char) :
    Option (ArgsInput × Option (List Char)) :=
  match inp.currentView with
  | some (s, TokenKind.TwoDashes) =>
    if startsWithL s token then
      if s.drop token.length = [] ∨ (s.drop token.length).head? = some '=' then
        match inp.bump token.length with
        | some (inp2, out) => some (inp2, some out)
        | none => none
      else some (inp, none)
    else some (inp, none)
  | _ => some (inp, none)

/-- `ArgsInput::eat_value`: exact match, rejected outright for the
`OneDash` and `TwoDashes` kinds. -/
def ArgsInput.eat_value (inp : ArgsInput) (token : List Char) :
    Option (ArgsInput × Option (List Char)) :=
  match inp.currentView with
  | some (s, kind) =>
    match kind with
    | TokenKind.TwoDashes | TokenKind.OneDash => some (inp, none)
    | TokenKind.NoDash | TokenKind.AfterOneDash | TokenKind.AfterEquals =>
      if startsWithL s token then
        if s.drop token.length = [] then
          match inp.bump token.length with
          | some (inp2, out) => some (inp2, some out)
          | none => none
        else some (inp, none)
      else some (inp, none)
  | none => some (inp, none)

/-- `ArgsInput::eat_value_allows_leading_dashes`: exact match against the
raw view, any kind. -/
def ArgsInput.eat_value_allows_leading_dashes (inp : ArgsInput) (token : List Char) :
    Option (ArgsInput × Option (List Char)) :=
  match inp.current_str_with_leading_dashes with
  | some s =>
    if startsWithL s token then
      if s.drop token.length = [] then
        match inp.bump_with_leading_dashes token.length with
        | some (inp2, out) => some (inp2, some out)
        | none => none
      else some (inp, none)
    else some (inp, none)
  | none => some (inp, none)

/-- `InputPart` (`part.rs`): an uncommitted claim of `len` bytes on the
current dash-stripped token. -/
structure InputPart where
  input : ArgsInput
  len : Nat
deriving DecidableEq, Repr

/-- `InputPart::as_str`: `&self.input.current().unwrap().0[..self.len]`.
`none` models the `unwrap` panic on an exhausted input and the slice panic
when `len` exceeds the view. -/
def InputPart.as_str (p : InputPart) : Option (List Char) :=
  match p.input.currentView with
  | some (s, _) => if p.len ≤ s.length then some (s.take p.len) else none
  | none => none

/-- `InputPart::take`: replace the claimed length, with no clamping. -/
def InputPart.take (p : InputPart) (len : Nat) : InputPart :=
  { p with len := len }

/-- `InputPart::eat`: commit the claim via `bump`. -/
def InputPart.eat (p : InputPart) : Option (ArgsInput × List Char) :=
  p.input.bump p.len

/-- `InputPartLd` (`part.rs`): the dash-inclusive variant. -/
structure InputPartLd where
  input : ArgsInput
  len : Nat
deriving DecidableEq, Repr

/-- `InputPartLd::as_str`. -/
def InputPartLd.as_str (p : InputPartLd) : Option (List Char) :=
  match p.input.current_str_with_leading_dashes with
  | some s => if p.len ≤ s.length then some (s.take p.len) else none
  | none => none

/-- `InputPartLd::take`. -/
def InputPartLd.take (p : InputPartLd) (len : Nat) : InputPartLd :=
  { p with len := len }

/-- `InputPartLd::eat`. -/
def InputPartLd.eat (p : InputPartLd) : Option (ArgsInput × List Char) :=
  p.input.bump_with_leading_dashes p.len

/-! ### Instrumentation for whole-run theorems

The definitions below do not come from the source; they record, for each
successful commit, which byte ranges of the buffer were returned to the
caller and which were silently passed over (stripped dashes, skipped
equals signs). They are tied back to the source-level state by the
theorems about `runT`. -/

/-- Kinds whose `trim_equals` arm inspects the buffer for an equals sign. -/
def eqCheckKind : TokenKind → Bool
  | TokenKind.OneDash => true
  | TokenKind.TwoDashes => true
  | TokenKind.AfterOneDash => true
  | TokenKind.NoDash => false
  | TokenKind.AfterEquals => false

/-- A byte range of the buffer retired by one commit: its start position,
its contents, and whether it was returned to the caller (`com = true`) or
passed over (`com = false`). -/
structure Chunk where
  pos : Nat
  str : List Char
  com : Bool
deriving DecidableEq, Repr

/-- The ranges retired by `bump len` from state `inp`: the stripped dash
bytes between `rawStart` and `contentStart`, the returned slice, and the
equals sign skipped by `trim_equals`, if any. -/
def bumpChunks (inp : ArgsInput) (len : Nat) : List Chunk :=
  match inp.current with
  | some (cur, cwd, kind) =>
    [⟨cwd, sl inp.buf cwd (cur - cwd), false⟩, ⟨cur, sl inp.buf cur len, true⟩] ++
      (if len < inp.buf.length - cur ∧ eqCheckKind kind = true ∧
          (inp.buf.drop (cur + len)).head? = some '=' then
        [⟨cur + len, ['='], false⟩]
      else [])
  | none => []

/-- The ranges retired by `bump_with_leading_dashes len` from state `inp`:
the returned (dash-inclusive) slice, then — on a partial commit — the bytes
between the end of the slice and the re-classified cursor. -/
def bumpWldChunks (inp : ArgsInput) (len : Nat) : List Chunk :=
  match inp.current with
  | some (cur, cwd, kind) =>
    [⟨cwd, sl inp.buf cwd len, true⟩] ++
      (if len < inp.buf.length - cwd then
        [⟨cwd + len,
          sl inp.buf (cwd + len)
            ((cur - cwd) +
              (if eqCheckKind kind = true ∧ (inp.buf.drop (cur + len)).head? = some '='
               then 1 else 0)),
          false⟩]
      else [])
  | none => []

/-- One tokenizer operation of a run. -/
inductive Op where
  | opBump (len : Nat)
  | opBumpWld (len : Nat)
  | opEatNoDash (t : List Char)
  | opEatOneDash (t : List Char)
  | opEatTwoDashes (t : List Char)
  | opEatValue (t : List Char)
  | opEatValueLd (t : List Char)
  | opSetIgnore (b : Bool)
deriving DecidableEq, Repr

/-- Execute one operation, recording the retired chunks and the slices
returned to the caller. `none` models a panic. -/
def stepT (inp : ArgsInput) : Op → Option (ArgsInput × List Chunk × List (List Char))
  | Op.opBump len =>
    (inp.bump len).map (fun r => (r.1, bumpChunks inp len, [r.2]))
  | Op.opBumpWld len =>
    (inp.bump_with_leading_dashes len).map (fun r => (r.1, bumpWldChunks inp len, [r.2]))
  | Op.opEatNoDash t =>
    (inp.eat_no_dash t).map (fun r =>
      match r.2 with
      | some out => (r.1, bumpChunks inp t.length, [out])
      | none => (r.1, [], []))
  | Op.opEatOneDash t =>
    (inp.eat_one_dash t).map (fun r =>
      match r.2 with
      | some out => (r.1, bumpChunks inp t.length, [out])
      | none => (r.1, [], []))
  | Op.opEatTwoDashes t =>
    (inp.eat_two_dashes t).map (fun r =>
      match r.2 with
      | some out => (r.1, bumpChunks inp t.length, [out])
      | none => (r.1, [], []))
  | Op.opEatValue t =>
    (inp.eat_value t).map (fun r =>
      match r.2 with
      | some out => (r.1, bumpChunks inp t.length, [out])
      | none => (r.1, [], []))
  | Op.opEatValueLd t =>
    (inp.eat_value_allows_leading_dashes t).map (fun r =>
      match r.2 with
      | some out => (r.1, bumpWldChunks inp t.length, [out])
      | none => (r.1, [], []))
  | Op.opSetIgnore b => some (inp.set_ignore_dashes b, [], [])

/-- Execute a list of operations, concatenating chunks and returned
slices. -/
def runT (inp : ArgsInput) : List Op → Option (ArgsInput × List Chunk × List (List Char))
  | [] => some (inp, [], [])
  | op :: ops =>
    match stepT inp op with
    | some (i1, c1, o1) =>
      match runT i1 ops with
      | some (i2, c2, o2) => some (i2, c1 ++ c2, o1 ++ o2)
      | none => none
    | none => none

/-- The position up to which the buffer is permanently retired: the raw
cursor `rawStart`, or the whole buffer once the input is exhausted. -/
def frontier (inp : ArgsInput) : Nat :=
  match inp.current with
  | some (_, cwd, _) => cwd
  | none => inp.buf.length

/-- Well-formedness of a tokenizer state: `rawStart ≤ contentStart ≤
buffer length`, and the two offsets agree for the kinds whose
`trim_equals` arm does not slice the buffer. Holds for every reachable
state. -/
def wfB (inp : ArgsInput) : Bool :=
  match inp.current with
  | some (cur, cwd, kind) =>
    decide (cwd ≤ cur) && decide (cur ≤ inp.buf.length) &&
      (eqCheckKind kind || decide (cur = cwd))
  | none => true

/-- The chunk list `cs` tiles the buffer from position `f0` to `f1`. -/
def alignedB : Nat → List Chunk → Nat → Bool
  | f0, [], f1 => decide (f0 = f1)
  | f0, c :: cs, f1 => decide (f0 = c.pos) && alignedB (c.pos + c.str.length) cs f1

/-- Every chunk's contents are the buffer bytes at its recorded
position. -/
def inBufB (buf : List Char) (cs : List Chunk) : Bool :=
  cs.all (fun c =>
    decide (c.pos + c.str.length ≤ buf.length) && decide (sl buf c.pos c.str.length = c.str))

/-- Concatenation of the chunks' contents, in order. -/
def chunkConcat : List Chunk → List Char
  | [] => []
  | c :: cs => c.str ++ chunkConcat cs

/-- The returned (committed) slices among the chunks, in order. -/
def commitStrs (cs : List Chunk) : List (List Char) :=
  (cs.filter (fun c => c.com)).map Chunk.str

/-- Total length of all chunks. -/
def sumLens (cs : List Chunk) : Nat :=
  (cs.map (fun c => c.str.length)).sum

/-- Total length of the committed chunks. -/
def sumCom (cs : List Chunk) : Nat :=
  sumLens (cs.filter (fun c => c.com))

/-- Total length of the skipped chunks. -/
def sumSkip (cs : List Chunk) : Nat :=
  sumLens (cs.filter (fun c => !c.com))

/-- Concatenation of a list of raw arguments. -/
def concatL : List (List Char) → List Char
  | [] => []
  | s :: ss => s ++ concatL ss

/-- `b` extends `a` by pulling zero or more raw arguments from the source
and appending them to the buffer. -/
def pullsStar (a b : ArgsInput) : Prop :=
  ∃ pre, a.iter = pre ++ b.iter ∧ b.buf = a.buf ++ concatL pre

/-! Concrete states and chunk lists used to instantiate the run-level
theorems on small inputs. -/

def wSt : ArgsInput := { current := none, iter := [], buf := ['a', 'b'], ignore_dashes := false }

def wCs : List Chunk := [⟨0, [], false⟩, ⟨0, ['a', 'b'], true⟩]

def w2Mid : ArgsInput :=
  { current := some (3, 2, TokenKind.OneDash), iter := [],
    buf := ['-', 'a', '-', 'b'], ignore_dashes := false }

def w2Fin : ArgsInput :=
  { current := none, iter := [], buf := ['-', 'a', '-', 'b'], ignore_dashes := false }

def w2C1 : List Chunk := [⟨0, ['-'], false⟩, ⟨1, ['a'], true⟩]

def w2C2 : List Chunk := [⟨2, ['-'], false⟩, ⟨3, ['b'], true⟩]

def w7 : ArgsInput := ArgsInput.new [['x']]

def w9 : ArgsInput :=
  { current := some (4, 4, TokenKind.AfterEquals), iter := [['-']],
    buf := ['-', 'g', 'h', '='], ignore_dashes := false }

def w10 : InputPart := ⟨ArgsInput.new [['a', 'b']], 2⟩


/-- The kind `trim_equals` leaves in place when no equals sign is skipped. -/
def stayKind : TokenKind → TokenKind
  | TokenKind.OneDash => TokenKind.AfterOneDash
  | k => k

/-! ### Helper lemmas -/

theorem startsWithL_length {s t : List Char} (h : startsWithL s t = true) :
    t.length ≤ s.length := by
  induction t generalizing s with
  | nil => simp
  | cons b bs ih =>
    cases s with
    | nil => simp [startsWithL] at h
    | cons a as =>
      simp only [startsWithL, Bool.and_eq_true] at h
      simpa using ih h.2

theorem startsWithL_take {s t : List Char} (h : startsWithL s t = true) :
    s.take t.length = t := by
  induction t generalizing s with
  | nil => simp
  | cons b bs ih =>
    cases s with
    | nil => simp [startsWithL] at h
    | cons a as =>
      simp only [startsWithL, Bool.and_eq_true, beq_iff_eq] at h
      simp [h.1, ih h.2]

theorem startsWithL_iff {s t : List Char} :
    startsWithL s t = true ↔ ∃ u, s = t ++ u := by
  constructor
  · intro h
    refine ⟨s.drop t.length, ?_⟩
    conv_lhs => rw [← List.take_append_drop t.length s]
    rw [startsWithL_take h]
  · rintro ⟨u, rfl⟩
    induction t with
    | nil => cases u <;> simp [startsWithL]
    | cons b bs ih => simp [startsWithL, ih]

theorem startsWithL_append {s t x : List Char} (h : startsWithL s t = true) :
    startsWithL (s ++ x) t = true := by
  rw [startsWithL_iff] at h ⊢
  obtain ⟨u, rfl⟩ := h
  exact ⟨u ++ x, by simp⟩

theorem startsWithL_self (s : List Char) : startsWithL s s = true := by
  rw [startsWithL_iff]; exact ⟨[], by simp⟩

theorem startsWithL_drop_nil {s t : List Char} (h : startsWithL s t = true)
    (h2 : s.drop t.length = []) : s = t := by
  rw [startsWithL_iff] at h
  obtain ⟨u, rfl⟩ := h
  simp at h2
  simp [h2]

theorem sl_zero (buf : List Char) (a : Nat) : sl buf a 0 = [] := by
  simp [sl]

theorem sl_length (buf : List Char) (a len : Nat) :
    (sl buf a len).length = min len (buf.length - a) := by
  simp [sl]

theorem sl_length_of_le {buf : List Char} {a len : Nat} (h : a + len ≤ buf.length) :
    (sl buf a len).length = len := by
  rw [sl_length]; omega

theorem sl_append_of_le {buf x : List Char} {a len : Nat} (h : a + len ≤ buf.length) :
    sl (buf ++ x) a len = sl buf a len := by
  unfold sl
  rw [List.drop_append_of_le_length (by omega)]
  rw [List.take_append_of_le_length (by simp; omega)]

theorem sl_concat (buf : List Char) (a k m : Nat) :
    sl buf a k ++ sl buf (a + k) m = sl buf a (k + m) := by
  unfold sl
  rw [List.take_add, List.drop_drop]

theorem take_eq_sl (buf : List Char) (n : Nat) : buf.take n = sl buf 0 n := by
  simp [sl]

theorem alignedB_le {cs : List Chunk} :
    ∀ {f0 f1 : Nat}, alignedB f0 cs f1 = true → f0 ≤ f1 := by
  induction cs with
  | nil => intro f0 f1 h; simp [alignedB] at h; omega
  | cons c cs ih =>
    intro f0 f1 h
    simp only [alignedB, Bool.and_eq_true, decide_eq_true_eq] at h
    have := ih h.2
    omega

theorem alignedB_append {cs1 cs2 : List Chunk} :
    ∀ {f0 f1 f2 : Nat}, alignedB f0 cs1 f1 = true → alignedB f1 cs2 f2 = true →
    alignedB f0 (cs1 ++ cs2) f2 = true := by
  induction cs1 with
  | nil =>
    intro f0 f1 f2 h1 h2
    simp only [alignedB, decide_eq_true_eq] at h1
    simpa [h1] using h2
  | cons c cs ih =>
    intro f0 f1 f2 h1 h2
    simp only [alignedB, Bool.and_eq_true, decide_eq_true_eq] at h1 ⊢
    exact ⟨h1.1, ih h1.2 h2⟩

theorem alignedB_bounds {cs : List Chunk} :
    ∀ {f0 f1 : Nat}, alignedB f0 cs f1 = true →
    ∀ c ∈ cs, f0 ≤ c.pos ∧ c.pos + c.str.length ≤ f1 := by
  induction cs with
  | nil => intro _ _ _ c hc; simp at hc
  | cons d cs ih =>
    intro f0 f1 h c hc
    simp only [alignedB, Bool.and_eq_true, decide_eq_true_eq] at h
    rcases List.mem_cons.mp hc with rfl | hmem
    · have := alignedB_le h.2
      omega
    · have := ih h.2 c hmem
      omega

theorem alignedB_sumLens {cs : List Chunk} :
    ∀ {f0 f1 : Nat}, alignedB f0 cs f1 = true → f0 + sumLens cs = f1 := by
  induction cs with
  | nil => intro f0 f1 h; simp only [alignedB, decide_eq_true_eq] at h; simp [sumLens, h]
  | cons c cs ih =>
    intro f0 f1 h
    simp only [alignedB, Bool.and_eq_true, decide_eq_true_eq] at h
    have := ih h.2
    simp only [sumLens, List.map_cons, List.sum_cons] at this ⊢
    omega

theorem sumCom_add_sumSkip (cs : List Chunk) :
    sumCom cs + sumSkip cs = sumLens cs := by
  induction cs with
  | nil => simp [sumCom, sumSkip, sumLens]
  | cons c cs ih =>
    simp only [sumCom, sumSkip, sumLens, List.filter_cons] at ih ⊢
    cases hcom : c.com <;> simp [hcom] <;> omega

theorem inBufB_mono {buf x : List Char} {cs : List Chunk} (h : inBufB buf cs = true) :
    inBufB (buf ++ x) cs = true := by
  simp only [inBufB, List.all_eq_true, Bool.and_eq_true, decide_eq_true_eq] at h ⊢
  intro c hc
  obtain ⟨hle, hsl⟩ := h c hc
  refine ⟨by simp; omega, ?_⟩
  rw [sl_append_of_le hle, hsl]

theorem inBufB_append {buf : List Char} {cs1 cs2 : List Chunk} :
    inBufB buf (cs1 ++ cs2) = (inBufB buf cs1 && inBufB buf cs2) := by
  simp [inBufB, List.all_append]

theorem chunkConcat_append (cs1 cs2 : List Chunk) :
    chunkConcat (cs1 ++ cs2) = chunkConcat cs1 ++ chunkConcat cs2 := by
  induction cs1 with
  | nil => simp [chunkConcat]
  | cons c cs ih => simp [chunkConcat, ih]

theorem commitStrs_append (cs1 cs2 : List Chunk) :
    commitStrs (cs1 ++ cs2) = commitStrs cs1 ++ commitStrs cs2 := by
  simp [commitStrs]

theorem aligned_inBuf_concat {buf : List Char} {cs : List Chunk} :
    ∀ {f0 f1 : Nat}, alignedB f0 cs f1 = true → inBufB buf cs = true →
    chunkConcat cs = sl buf f0 (f1 - f0) := by
  induction cs with
  | nil =>
    intro f0 f1 h _
    simp only [alignedB, decide_eq_true_eq] at h
    simp [chunkConcat, h, sl_zero]
  | cons c cs ih =>
    intro f0 f1 h hb
    simp only [alignedB, Bool.and_eq_true, decide_eq_true_eq] at h
    obtain ⟨rfl, h2⟩ := h
    simp only [inBufB, List.all_cons, Bool.and_eq_true, decide_eq_true_eq] at hb
    have hc : c.pos + c.str.length ≤ buf.length ∧ sl buf c.pos c.str.length = c.str := hb.1
    have hrest : chunkConcat cs = sl buf (c.pos + c.str.length) (f1 - (c.pos + c.str.length)) :=
      ih h2 hb.2
    have hle := alignedB_le h2
    have hlen : c.str.length + (f1 - (c.pos + c.str.length)) = f1 - c.pos := by omega
    have key := sl_concat buf c.pos c.str.length (f1 - (c.pos + c.str.length))
    rw [hc.2, hlen] at key
    simp only [chunkConcat]
    rw [hrest, key]

theorem concatL_append (a b : List (List Char)) :
    concatL (a ++ b) = concatL a ++ concatL b := by
  induction a with
  | nil => simp [concatL]
  | cons s ss ih => simp [concatL, ih]

theorem pullsStar_refl (a : ArgsInput) : pullsStar a a :=
  ⟨[], by simp [concatL]⟩

theorem pullsStar_trans {a b c : ArgsInput} (h1 : pullsStar a b) (h2 : pullsStar b c) :
    pullsStar a c := by
  obtain ⟨p1, hi1, hb1⟩ := h1
  obtain ⟨p2, hi2, hb2⟩ := h2
  exact ⟨p1 ++ p2, by rw [hi1, hi2]; simp, by rw [hb2, hb1, concatL_append]; simp⟩

theorem trim_equals_cases (buf : List Char) (p : Nat) (k : TokenKind) :
    trim_equals buf p k =
      if eqCheckKind k = true then
        (if buf.length < p then none
         else if (buf.drop p).head? = some '=' then
           some (p + 1, p + 1, TokenKind.AfterEquals)
         else some (p, p, stayKind k))
      else some (p, p, k) := by
  cases k <;> simp [trim_equals, eqCheckKind, stayKind]

theorem trim_leading_dashes_raw (ig : Bool) (s : List Char) (p : Nat) :
    (trim_leading_dashes ig s p).2.1 = p := by
  unfold trim_leading_dashes
  split <;> try rfl
  split <;> try rfl
  split <;> rfl

theorem trim_leading_dashes_bounds (ig : Bool) (s : List Char) (p : Nat) :
    p ≤ (trim_leading_dashes ig s p).1 ∧
    (trim_leading_dashes ig s p).1 ≤ p + s.length ∧
    (eqCheckKind (trim_leading_dashes ig s p).2.2 = false →
      (trim_leading_dashes ig s p).1 = p) := by
  unfold trim_leading_dashes
  split
  · simp [eqCheckKind]
  · split
    · rename_i h2
      have := startsWithL_length h2
      simp at this
      simp [eqCheckKind]; omega
    · split
      · rename_i h1
        have := startsWithL_length h1
        simp at this
        simp [eqCheckKind]; omega
      · simp [eqCheckKind]

theorem head?_take {l : List Char} {c : Char} (h : l.head? = some c) :
    l.take 1 = [c] := by
  cases l <;> simp_all

theorem head?_pos {l : List Char} {c : Char} (h : l.head? = some c) :
    0 < l.length := by
  cases l <;> simp_all

theorem alignedB_one (f0 f1 a : Nat) (s1 : List Char) (k1 : Bool) :
    alignedB f0 [⟨a, s1, k1⟩] f1 = true ↔ f0 = a ∧ a + s1.length = f1 := by
  simp [alignedB]

theorem alignedB_two (f0 f1 a b : Nat) (s1 s2 : List Char) (k1 k2 : Bool) :
    alignedB f0 [⟨a, s1, k1⟩, ⟨b, s2, k2⟩] f1 = true ↔
      f0 = a ∧ a + s1.length = b ∧ b + s2.length = f1 := by
  simp [alignedB]

theorem alignedB_three (f0 f1 a b c : Nat) (s1 s2 s3 : List Char) (k1 k2 k3 : Bool) :
    alignedB f0 [⟨a, s1, k1⟩, ⟨b, s2, k2⟩, ⟨c, s3, k3⟩] f1 = true ↔
      f0 = a ∧ a + s1.length = b ∧ b + s2.length = c ∧ c + s3.length = f1 := by
  simp [alignedB]

theorem inBufB_one (buf : List Char) (a : Nat) (s1 : List Char) (k1 : Bool) :
    inBufB buf [⟨a, s1, k1⟩] = true ↔
      (a + s1.length ≤ buf.length ∧ sl buf a s1.length = s1) := by
  simp [inBufB]

theorem inBufB_two (buf : List Char) (a b : Nat) (s1 s2 : List Char) (k1 k2 : Bool) :
    inBufB buf [⟨a, s1, k1⟩, ⟨b, s2, k2⟩] = true ↔
      (a + s1.length ≤ buf.length ∧ sl buf a s1.length = s1) ∧
      (b + s2.length ≤ buf.length ∧ sl buf b s2.length = s2) := by
  simp [inBufB]

theorem inBufB_three (buf : List Char) (a b c : Nat) (s1 s2 s3 : List Char)
    (k1 k2 k3 : Bool) :
    inBufB buf [⟨a, s1, k1⟩, ⟨b, s2, k2⟩, ⟨c, s3, k3⟩] = true ↔
      (a + s1.length ≤ buf.length ∧ sl buf a s1.length = s1) ∧
      (b + s2.length ≤ buf.length ∧ sl buf b s2.length = s2) ∧
      (c + s3.length ≤ buf.length ∧ sl buf c s3.length = s3) := by
  simp [inBufB]

theorem commitStrs_sc2 (a b : Nat) (s1 s2 : List Char) :
    commitStrs [⟨a, s1, false⟩, ⟨b, s2, true⟩] = [s2] := by
  simp [commitStrs]

theorem commitStrs_sc3 (a b c : Nat) (s1 s2 s3 : List Char) :
    commitStrs [⟨a, s1, false⟩, ⟨b, s2, true⟩, ⟨c, s3, false⟩] = [s2] := by
  simp [commitStrs]

theorem commitStrs_c1 (a : Nat) (s1 : List Char) :
    commitStrs [⟨a, s1, true⟩] = [s1] := by
  simp [commitStrs]

theorem commitStrs_c2 (a b : Nat) (s1 s2 : List Char) :
    commitStrs [⟨a, s1, true⟩, ⟨b, s2, false⟩] = [s1] := by
  simp [commitStrs]

theorem wfB_some {inp : ArgsInput} {cur cwd : Nat} {kind : TokenKind}
    (h : inp.current = some (cur, cwd, kind)) (hwf : wfB inp = true) :
    cwd ≤ cur ∧ cur ≤ inp.buf.length ∧ (eqCheckKind kind = false → cur = cwd) := by
  unfold wfB at hwf
  rw [h] at hwf
  simp only [Bool.and_eq_true, Bool.or_eq_true, decide_eq_true_eq] at hwf
  refine ⟨hwf.1.1, hwf.1.2, fun hf => ?_⟩
  rcases hwf.2 with h2 | h2
  · rw [hf] at h2; exact absurd h2 (by simp)
  · exact h2

theorem frontier_some {inp : ArgsInput} {cur cwd : Nat} {kind : TokenKind}
    (h : inp.current = some (cur, cwd, kind)) : frontier inp = cwd := by
  unfold frontier; rw [h]

/-- Soundness of a single `bump`: the new state is well-formed, the chunks
recorded for the commit tile the buffer from the old raw cursor to the new
one, their contents are the corresponding buffer bytes, the buffer grows
only by pulled arguments, and the returned slice is the single committed
chunk, of length exactly `len`. -/
theorem bump_sound {inp inp' : ArgsInput} {len : Nat} {out : List Char}
    (hwf : wfB inp = true) (h : inp.bump len = some (inp', out)) :
    wfB inp' = true ∧
    alignedB (frontier inp) (bumpChunks inp len) (frontier inp') = true ∧
    inBufB inp'.buf (bumpChunks inp len) = true ∧
    pullsStar inp inp' ∧
    commitStrs (bumpChunks inp len) = [out] ∧
    out.length = len := by
  unfold ArgsInput.bump at h
  split at h
  case h_2 => exact absurd h (by simp)
  case h_1 cur cwd kind hcur =>
  obtain ⟨hwle, hcle, hkeq⟩ := wfB_some hcur hwf
  rw [frontier_some hcur]
  split at h
  · exact absurd h (by simp)
  next hg =>
  split at h
  next hfull =>
    -- the current raw argument is fully consumed: refill or exhaust
    have hlen_eq : cur + len = inp.buf.length := by omega
    have hskip : ¬ (len < inp.buf.length - cur ∧ eqCheckKind kind = true ∧
        (inp.buf.drop (cur + len)).head? = some '=') := by
      rintro ⟨hlt, -, -⟩; omega
    split at h
    next s rest hiter =>
      simp only [Option.some.injEq, Prod.mk.injEq] at h
      obtain ⟨h1, h2⟩ := h
      subst h1; subst h2
      have hout : sl (inp.buf ++ s) cur len = sl inp.buf cur len :=
        sl_append_of_le (by omega)
      rcases htld : trim_leading_dashes inp.ignore_dashes s (cur + len) with ⟨tc, tw, tk⟩
      have hraw := trim_leading_dashes_raw inp.ignore_dashes s (cur + len)
      have hbnd := trim_leading_dashes_bounds inp.ignore_dashes s (cur + len)
      rw [htld] at hraw hbnd
      simp only at hraw hbnd
      subst hraw
      refine ⟨?_, ?_, ?_, ?_, ?_, ?_⟩
      · simp only [wfB, htld, Bool.and_eq_true, Bool.or_eq_true, decide_eq_true_eq,
          List.length_append]
        refine ⟨⟨hbnd.1, by omega⟩, ?_⟩
        by_cases hek : eqCheckKind tk = true
        · exact Or.inl hek
        · exact Or.inr (hbnd.2.2 (by simpa using hek))
      · simp only [bumpChunks, hcur, if_neg hskip, List.append_nil, frontier, htld]
        rw [alignedB_two]
        simp only [sl_length, true_and, and_true]
        omega
      · simp only [bumpChunks, hcur, if_neg hskip, List.append_nil]
        rw [inBufB_two]
        refine ⟨⟨?_, ?_⟩, ?_, ?_⟩
        · simp only [sl_length, List.length_append]; omega
        · rw [sl_length_of_le (by omega)]
          exact sl_append_of_le (by omega)
        · simp only [sl_length, List.length_append]; omega
        · rw [sl_length_of_le (by omega)]
          exact sl_append_of_le (by omega)
      · exact ⟨[s], by simp [hiter], by simp [concatL]⟩
      · simp only [bumpChunks, hcur, if_neg hskip, List.append_nil]
        rw [commitStrs_sc2, hout]
      · rw [sl_length_of_le (by simp; omega)]
    next hiter =>
      simp only [Option.some.injEq, Prod.mk.injEq] at h
      obtain ⟨h1, h2⟩ := h
      subst h1; subst h2
      refine ⟨by simp [wfB], ?_, ?_, pullsStar_refl _, ?_, ?_⟩
      · simp only [bumpChunks, hcur, if_neg hskip, List.append_nil, frontier]
        rw [alignedB_two]
        simp only [sl_length, true_and, and_true]
        omega
      · simp only [bumpChunks, hcur, if_neg hskip, List.append_nil]
        rw [inBufB_two]
        refine ⟨⟨?_, ?_⟩, ?_, ?_⟩
        · simp only [sl_length]; omega
        · rw [sl_length_of_le (by omega)]
        · simp only [sl_length]; omega
        · rw [sl_length_of_le (by omega)]
      · simp only [bumpChunks, hcur, if_neg hskip, List.append_nil]
        rw [commitStrs_sc2]
      · exact sl_length_of_le (by omega)
  next hfull =>
    -- partial consumption: re-run equals classification
    have hpart : len < inp.buf.length - cur := by omega
    have hple : cur + len < inp.buf.length := by omega
    rw [trim_equals_cases] at h
    by_cases hek : eqCheckKind kind = true
    · rw [if_pos hek, if_neg (by omega)] at h
      by_cases heq : (inp.buf.drop (cur + len)).head? = some '='
      · rw [if_pos heq] at h
        simp only [Option.some.injEq, Prod.mk.injEq] at h
        obtain ⟨h1, h2⟩ := h
        subst h1; subst h2
        have hskip : (len < inp.buf.length - cur ∧ eqCheckKind kind = true ∧
            (inp.buf.drop (cur + len)).head? = some '=') := ⟨hpart, hek, heq⟩
        refine ⟨by simp [wfB]; omega, ?_, ?_, pullsStar_refl _, ?_, ?_⟩
        · simp only [bumpChunks, hcur, if_pos hskip, List.cons_append, List.nil_append,
            frontier]
          rw [alignedB_three]
          simp only [sl_length, List.length_cons, List.length_nil, true_and, and_true]
          omega
        · simp only [bumpChunks, hcur, if_pos hskip, List.cons_append, List.nil_append]
          rw [inBufB_three]
          refine ⟨⟨?_, ?_⟩, ⟨?_, ?_⟩, ?_, ?_⟩
          · simp only [sl_length]; omega
          · rw [sl_length_of_le (by omega)]
          · simp only [sl_length]; omega
          · rw [sl_length_of_le (by omega)]
          · simp only [List.length_cons, List.length_nil]; omega
          · exact head?_take heq
        · simp only [bumpChunks, hcur, if_pos hskip, List.cons_append, List.nil_append]
          rw [commitStrs_sc3]
        · exact sl_length_of_le (by omega)
      · rw [if_neg heq] at h
        simp only [Option.some.injEq, Prod.mk.injEq] at h
        obtain ⟨h1, h2⟩ := h
        subst h1; subst h2
        have hskip : ¬ (len < inp.buf.length - cur ∧ eqCheckKind kind = true ∧
            (inp.buf.drop (cur + len)).head? = some '=') := by
          rintro ⟨-, -, hh⟩; exact heq hh
        refine ⟨by simp [wfB]; omega, ?_, ?_, pullsStar_refl _, ?_, ?_⟩
        · simp only [bumpChunks, hcur, if_neg hskip, List.append_nil, frontier]
          rw [alignedB_two]
          simp only [sl_length, true_and, and_true]
          omega
        · simp only [bumpChunks, hcur, if_neg hskip, List.append_nil]
          rw [inBufB_two]
          refine ⟨⟨?_, ?_⟩, ?_, ?_⟩
          · simp only [sl_length]; omega
          · rw [sl_length_of_le (by omega)]
          · simp only [sl_length]; omega
          · rw [sl_length_of_le (by omega)]
        · simp only [bumpChunks, hcur, if_neg hskip, List.append_nil]
          rw [commitStrs_sc2]
        · exact sl_length_of_le (by omega)
    · rw [if_neg hek] at h
      simp only [Option.some.injEq, Prod.mk.injEq] at h
      obtain ⟨h1, h2⟩ := h
      subst h1; subst h2
      have hskip : ¬ (len < inp.buf.length - cur ∧ eqCheckKind kind = true ∧
          (inp.buf.drop (cur + len)).head? = some '=') := by
        rintro ⟨-, hh, -⟩; exact hek hh
      refine ⟨?_, ?_, ?_, pullsStar_refl _, ?_, ?_⟩
      · simp only [wfB, Bool.and_eq_true, Bool.or_eq_true, decide_eq_true_eq]
        exact ⟨⟨le_refl _, by omega⟩, Or.inr trivial⟩
      · simp only [bumpChunks, hcur, if_neg hskip, List.append_nil, frontier]
        rw [alignedB_two]
        simp only [sl_length, true_and, and_true]
        omega
      · simp only [bumpChunks, hcur, if_neg hskip, List.append_nil]
        rw [inBufB_two]
        refine ⟨⟨?_, ?_⟩, ?_, ?_⟩
        · simp only [sl_length]; omega
        · rw [sl_length_of_le (by omega)]
        · simp only [sl_length]; omega
        · rw [sl_length_of_le (by omega)]
      · simp only [bumpChunks, hcur, if_neg hskip, List.append_nil]
        rw [commitStrs_sc2]
      · exact sl_length_of_le (by omega)

/-- Soundness of a single `bump_with_leading_dashes`, mirrors
`bump_sound` with the dash-inclusive chunk bookkeeping. -/
theorem bump_wld_sound {inp inp' : ArgsInput} {len : Nat} {out : List Char}
    (hwf : wfB inp = true) (h : inp.bump_with_leading_dashes len = some (inp', out)) :
    wfB inp' = true ∧
    alignedB (frontier inp) (bumpWldChunks inp len) (frontier inp') = true ∧
    inBufB inp'.buf (bumpWldChunks inp len) = true ∧
    pullsStar inp inp' ∧
    commitStrs (bumpWldChunks inp len) = [out] ∧
    out.length = len := by
  unfold ArgsInput.bump_with_leading_dashes at h
  split at h
  case h_2 => exact absurd h (by simp)
  case h_1 cur cwd kind hcur =>
  obtain ⟨hwle, hcle, hkeq⟩ := wfB_some hcur hwf
  rw [frontier_some hcur]
  split at h
  · exact absurd h (by simp)
  next hg =>
  split at h
  next hfull =>
    -- the raw argument is fully consumed: refill or exhaust
    have hlen_eq : cwd + len = inp.buf.length := by omega
    have hnpart : ¬ (len < inp.buf.length - cwd) := by omega
    split at h
    next s rest hiter =>
      simp only [Option.some.injEq, Prod.mk.injEq] at h
      obtain ⟨h1, h2⟩ := h
      subst h1; subst h2
      have hout : sl (inp.buf ++ s) cwd len = sl inp.buf cwd len :=
        sl_append_of_le (by omega)
      rcases htld : trim_leading_dashes inp.ignore_dashes s (cwd + len) with ⟨tc, tw, tk⟩
      have hraw := trim_leading_dashes_raw inp.ignore_dashes s (cwd + len)
      have hbnd := trim_leading_dashes_bounds inp.ignore_dashes s (cwd + len)
      rw [htld] at hraw hbnd
      simp only at hraw hbnd
      subst hraw
      refine ⟨?_, ?_, ?_, ?_, ?_, ?_⟩
      · simp only [wfB, htld, Bool.and_eq_true, Bool.or_eq_true, decide_eq_true_eq,
          List.length_append]
        refine ⟨⟨hbnd.1, by omega⟩, ?_⟩
        by_cases hek : eqCheckKind tk = true
        · exact Or.inl hek
        · exact Or.inr (hbnd.2.2 (by simpa using hek))
      · simp only [bumpWldChunks, hcur, if_neg hnpart, List.append_nil, frontier, htld]
        rw [alignedB_one]
        simp only [sl_length, true_and, and_true]
        omega
      · simp only [bumpWldChunks, hcur, if_neg hnpart, List.append_nil]
        rw [inBufB_one]
        refine ⟨?_, ?_⟩
        · simp only [sl_length, List.length_append]; omega
        · rw [sl_length_of_le (by omega)]
          exact sl_append_of_le (by omega)
      · exact ⟨[s], by simp [hiter], by simp [concatL]⟩
      · simp only [bumpWldChunks, hcur, if_neg hnpart, List.append_nil]
        rw [commitStrs_c1, hout]
      · rw [sl_length_of_le (by simp; omega)]
    next hiter =>
      simp only [Option.some.injEq, Prod.mk.injEq] at h
      obtain ⟨h1, h2⟩ := h
      subst h1; subst h2
      refine ⟨by simp [wfB], ?_, ?_, pullsStar_refl _, ?_, ?_⟩
      · simp only [bumpWldChunks, hcur, if_neg hnpart, List.append_nil, frontier]
        rw [alignedB_one]
        simp only [sl_length, true_and, and_true]
        omega
      · simp only [bumpWldChunks, hcur, if_neg hnpart, List.append_nil]
        rw [inBufB_one]
        refine ⟨?_, ?_⟩
        · simp only [sl_length]; omega
        · rw [sl_length_of_le (by omega)]
      · simp only [bumpWldChunks, hcur, if_neg hnpart, List.append_nil]
        rw [commitStrs_c1]
      · exact sl_length_of_le (by omega)
  next hfull =>
    -- partial consumption of the raw argument
    have hpart : len < inp.buf.length - cwd := by omega
    rw [trim_equals_cases] at h
    by_cases hek : eqCheckKind kind = true
    · rw [if_pos hek] at h
      by_cases hoob : inp.buf.length < cur + len
      · rw [if_pos hoob] at h
        exact absurd h (by simp)
      · rw [if_neg hoob] at h
        by_cases heq : (inp.buf.drop (cur + len)).head? = some '='
        · rw [if_pos heq] at h
          simp only [Option.some.injEq, Prod.mk.injEq] at h
          obtain ⟨h1, h2⟩ := h
          subst h1; subst h2
          have hlt : cur + len < inp.buf.length := by
            have := head?_pos heq
            simp only [List.length_drop] at this
            omega
          refine ⟨by simp [wfB]; omega, ?_, ?_, pullsStar_refl _, ?_, ?_⟩
          · simp only [bumpWldChunks, hcur, if_pos hpart, if_pos (And.intro hek heq),
              List.cons_append, List.nil_append, frontier]
            rw [alignedB_two]
            simp only [sl_length, true_and, and_true]
            omega
          · simp only [bumpWldChunks, hcur, if_pos hpart, if_pos (And.intro hek heq),
              List.cons_append, List.nil_append]
            rw [inBufB_two]
            refine ⟨⟨?_, ?_⟩, ?_, ?_⟩
            · simp only [sl_length]; omega
            · rw [sl_length_of_le (by omega)]
            · simp only [sl_length]; omega
            · rw [sl_length_of_le (by omega)]
          · simp only [bumpWldChunks, hcur, if_pos hpart, if_pos (And.intro hek heq),
              List.cons_append, List.nil_append]
            rw [commitStrs_c2]
          · exact sl_length_of_le (by omega)
        · rw [if_neg heq] at h
          simp only [Option.some.injEq, Prod.mk.injEq] at h
          obtain ⟨h1, h2⟩ := h
          subst h1; subst h2
          have hne : ¬ (eqCheckKind kind = true ∧
              (inp.buf.drop (cur + len)).head? = some '=') := by
            rintro ⟨-, hh⟩; exact heq hh
          refine ⟨by simp [wfB]; omega, ?_, ?_, pullsStar_refl _, ?_, ?_⟩
          · simp only [bumpWldChunks, hcur, if_pos hpart, if_neg hne,
              List.cons_append, List.nil_append, frontier]
            rw [alignedB_two]
            simp only [sl_length, true_and, and_true]
            omega
          · simp only [bumpWldChunks, hcur, if_pos hpart, if_neg hne,
              List.cons_append, List.nil_append]
            rw [inBufB_two]
            refine ⟨⟨?_, ?_⟩, ?_, ?_⟩
            · simp only [sl_length]; omega
            · rw [sl_length_of_le (by omega)]
            · simp only [sl_length]; omega
            · rw [sl_length_of_le (by omega)]
          · simp only [bumpWldChunks, hcur, if_pos hpart, if_neg hne,
              List.cons_append, List.nil_append]
            rw [commitStrs_c2]
          · exact sl_length_of_le (by omega)
    · rw [if_neg hek] at h
      simp only [Option.some.injEq, Prod.mk.injEq] at h
      obtain ⟨h1, h2⟩ := h
      subst h1; subst h2
      have hcc : cur = cwd := hkeq (by simpa using hek)
      have hne : ¬ (eqCheckKind kind = true ∧
          (inp.buf.drop (cur + len)).head? = some '=') := by
        rintro ⟨hh, -⟩; exact hek hh
      refine ⟨?_, ?_, ?_, pullsStar_refl _, ?_, ?_⟩
      · simp only [wfB, Bool.and_eq_true, Bool.or_eq_true, decide_eq_true_eq]
        exact ⟨⟨le_refl _, by omega⟩, Or.inr trivial⟩
      · simp only [bumpWldChunks, hcur, if_pos hpart, if_neg hne,
          List.cons_append, List.nil_append, frontier]
        rw [alignedB_two]
        simp only [sl_length, true_and, and_true]
        omega
      · simp only [bumpWldChunks, hcur, if_pos hpart, if_neg hne,
          List.cons_append, List.nil_append]
        rw [inBufB_two]
        refine ⟨⟨?_, ?_⟩, ?_, ?_⟩
        · simp only [sl_length]; omega
        · rw [sl_length_of_le (by omega)]
        · simp only [sl_length]; omega
        · rw [sl_length_of_le (by omega)]
      · simp only [bumpWldChunks, hcur, if_pos hpart, if_neg hne,
          List.cons_append, List.nil_append]
        rw [commitStrs_c2]
      · exact sl_length_of_le (by omega)

/-- A failed `eat_no_dash` leaves the state unchanged; a successful one is
exactly a `bump` by the token length. -/
theorem eat_no_dash_elim {inp inp' : ArgsInput} {t : List Char} {r : Option (List Char)}
    (h : inp.eat_no_dash t = some (inp', r)) :
    (inp' = inp ∧ r = none) ∨ ∃ out, r = some out ∧ inp.bump t.length = some (inp', out) := by
  unfold ArgsInput.eat_no_dash at h
  repeat' split at h
  all_goals
    first
    | (exact Option.noConfusion h)
    | (simp only [Option.some.injEq, Prod.mk.injEq] at h
       exact Or.inl ⟨h.1.symm, h.2.symm⟩)
    | (rename_i inp2 o hb
       simp only [Option.some.injEq, Prod.mk.injEq] at h
       exact Or.inr ⟨o, h.2.symm, h.1 ▸ hb⟩)

/-- Analogue of `eat_no_dash_elim` for `eat_one_dash`. -/
theorem eat_one_dash_elim {inp inp' : ArgsInput} {t : List Char} {r : Option (List Char)}
    (h : inp.eat_one_dash t = some (inp', r)) :
    (inp' = inp ∧ r = none) ∨ ∃ out, r = some out ∧ inp.bump t.length = some (inp', out) := by
  unfold ArgsInput.eat_one_dash at h
  repeat' split at h
  all_goals
    first
    | (exact Option.noConfusion h)
    | (simp only [Option.some.injEq, Prod.mk.injEq] at h
       exact Or.inl ⟨h.1.symm, h.2.symm⟩)
    | (rename_i inp2 o hb
       simp only [Option.some.injEq, Prod.mk.injEq] at h
       exact Or.inr ⟨o, h.2.symm, h.1 ▸ hb⟩)

/-- Analogue of `eat_no_dash_elim` for `eat_two_dashes`. -/
theorem eat_two_dashes_elim {inp inp' : ArgsInput} {t : List Char} {r : Option (List Char)}
    (h : inp.eat_two_dashes t = some (inp', r)) :
    (inp' = inp ∧ r = none) ∨ ∃ out, r = some out ∧ inp.bump t.length = some (inp', out) := by
  unfold ArgsInput.eat_two_dashes at h
  repeat' split at h
  all_goals
    first
    | (exact Option.noConfusion h)
    | (simp only [Option.some.injEq, Prod.mk.injEq] at h
       exact Or.inl ⟨h.1.symm, h.2.symm⟩)
    | (rename_i inp2 o hb
       simp only [Option.some.injEq, Prod.mk.injEq] at h
       exact Or.inr ⟨o, h.2.symm, h.1 ▸ hb⟩)

/-- Analogue of `eat_no_dash_elim` for `eat_value`. -/
theorem eat_value_elim {inp inp' : ArgsInput} {t : List Char} {r : Option (List Char)}
    (h : inp.eat_value t = some (inp', r)) :
    (inp' = inp ∧ r = none) ∨ ∃ out, r = some out ∧ inp.bump t.length = some (inp', out) := by
  unfold ArgsInput.eat_value at h
  repeat' split at h
  all_goals
    first
    | (exact Option.noConfusion h)
    | (simp only [Option.some.injEq, Prod.mk.injEq] at h
       exact Or.inl ⟨h.1.symm, h.2.symm⟩)
    | (rename_i inp2 o hb
       simp only [Option.some.injEq, Prod.mk.injEq] at h
       exact Or.inr ⟨o, h.2.symm, h.1 ▸ hb⟩)

/-- Analogue of `eat_no_dash_elim` for `eat_value_allows_leading_dashes`,
reducing to `bump_with_leading_dashes`. -/
theorem eat_value_ld_elim {inp inp' : ArgsInput} {t : List Char} {r : Option (List Char)}
    (h : inp.eat_value_allows_leading_dashes t = some (inp', r)) :
    (inp' = inp ∧ r = none) ∨
      ∃ out, r = some out ∧ inp.bump_with_leading_dashes t.length = some (inp', out) := by
  unfold ArgsInput.eat_value_allows_leading_dashes at h
  repeat' split at h
  all_goals
    first
    | (exact Option.noConfusion h)
    | (simp only [Option.some.injEq, Prod.mk.injEq] at h
       exact Or.inl ⟨h.1.symm, h.2.symm⟩)
    | (rename_i inp2 o hb
       simp only [Option.some.injEq, Prod.mk.injEq] at h
       exact Or.inr ⟨o, h.2.symm, h.1 ▸ hb⟩)

/-- `set_ignore_dashes` never moves the raw cursor, the buffer, or the
source, and preserves well-formedness. -/
theorem set_ignore_sound (inp : ArgsInput) (b : Bool) (hwf : wfB inp = true) :
    wfB (inp.set_ignore_dashes b) = true ∧
    frontier (inp.set_ignore_dashes b) = frontier inp ∧
    (inp.set_ignore_dashes b).buf = inp.buf ∧
    (inp.set_ignore_dashes b).iter = inp.iter := by
  rcases hcur : inp.current with _ | ⟨cur, cwd, kind⟩
  · have hs : inp.set_ignore_dashes b = { inp with ignore_dashes := b } := by
      unfold ArgsInput.set_ignore_dashes
      rw [hcur]
    rw [hs]
    exact ⟨by simp [wfB, hcur], by simp [frontier, hcur], rfl, rfl⟩
  · obtain ⟨hwle, hcle, hkeq⟩ := wfB_some hcur hwf
    by_cases hb : b = true
    · have hs : inp.set_ignore_dashes b =
          { inp with ignore_dashes := b, current := some (cwd, cwd, TokenKind.NoDash) } := by
        unfold ArgsInput.set_ignore_dashes
        rw [hcur]
        simp [hb]
      rw [hs, frontier_some hcur]
      refine ⟨?_, by simp [frontier], rfl, rfl⟩
      simp only [wfB, Bool.and_eq_true, Bool.or_eq_true, decide_eq_true_eq]
      exact ⟨⟨le_refl _, by omega⟩, Or.inr trivial⟩
    · have hs : inp.set_ignore_dashes b =
          { inp with
            ignore_dashes := b
            current := some (trim_leading_dashes b (inp.buf.drop cur) cwd) } := by
        unfold ArgsInput.set_ignore_dashes
        rw [hcur]
        simp [hb]
      rcases htld : trim_leading_dashes b (inp.buf.drop cur) cwd with ⟨tc, tw, tk⟩
      have hraw := trim_leading_dashes_raw b (inp.buf.drop cur) cwd
      have hbnd := trim_leading_dashes_bounds b (inp.buf.drop cur) cwd
      rw [htld] at hraw hbnd
      simp only at hraw hbnd
      subst hraw
      rw [hs, htld, frontier_some hcur]
      refine ⟨?_, by simp [frontier], rfl, rfl⟩
      simp only [wfB, Bool.and_eq_true, Bool.or_eq_true, decide_eq_true_eq]
      have hdl : (inp.buf.drop cur).length = inp.buf.length - cur := by
        simp [List.length_drop]
      refine ⟨⟨hbnd.1, by have := hbnd.2.1; omega⟩, ?_⟩
      by_cases hek : eqCheckKind tk = true
      · exact Or.inl hek
      · exact Or.inr (hbnd.2.2 (by simpa using hek))

/-- Soundness of one instrumented step: well-formedness is preserved, the
recorded chunks tile the buffer between the old and new frontiers, their
contents are genuine buffer bytes, the buffer grows only by pulled
arguments, and the returned slices are exactly the committed chunks. -/
theorem stepT_sound {inp inp' : ArgsInput} {op : Op} {cs : List Chunk}
    {outs : List (List Char)}
    (hwf : wfB inp = true) (h : stepT inp op = some (inp', cs, outs)) :
    wfB inp' = true ∧
    alignedB (frontier inp) cs (frontier inp') = true ∧
    inBufB inp'.buf cs = true ∧
    pullsStar inp inp' ∧
    outs = commitStrs cs := by
  cases op with
  | opBump len =>
    simp only [stepT, Option.map_eq_some'] at h
    obtain ⟨⟨i1, o⟩, hb, hfa⟩ := h
    simp only [Prod.mk.injEq] at hfa
    obtain ⟨h1, h2, h3⟩ := hfa
    subst h1; subst h2; subst h3
    obtain ⟨w, a2, ib, p, cS, -⟩ := bump_sound hwf hb
    exact ⟨w, a2, ib, p, cS.symm⟩
  | opBumpWld len =>
    simp only [stepT, Option.map_eq_some'] at h
    obtain ⟨⟨i1, o⟩, hb, hfa⟩ := h
    simp only [Prod.mk.injEq] at hfa
    obtain ⟨h1, h2, h3⟩ := hfa
    subst h1; subst h2; subst h3
    obtain ⟨w, a2, ib, p, cS, -⟩ := bump_wld_sound hwf hb
    exact ⟨w, a2, ib, p, cS.symm⟩
  | opEatNoDash t =>
    simp only [stepT, Option.map_eq_some'] at h
    obtain ⟨⟨i1, r⟩, ha, hfa⟩ := h
    rcases eat_no_dash_elim ha with ⟨hi, hr⟩ | ⟨o, hr, hb⟩
    · subst hi; subst hr
      simp only [Prod.mk.injEq] at hfa
      obtain ⟨h1, h2, h3⟩ := hfa
      subst h1; subst h2; subst h3
      exact ⟨hwf, by simp [alignedB], by simp [inBufB], pullsStar_refl _, by simp [commitStrs]⟩
    · subst hr
      simp only [Prod.mk.injEq] at hfa
      obtain ⟨h1, h2, h3⟩ := hfa
      subst h1; subst h2; subst h3
      obtain ⟨w, a2, ib, p, cS, -⟩ := bump_sound hwf hb
      exact ⟨w, a2, ib, p, cS.symm⟩
  | opEatOneDash t =>
    simp only [stepT, Option.map_eq_some'] at h
    obtain ⟨⟨i1, r⟩, ha, hfa⟩ := h
    rcases eat_one_dash_elim ha with ⟨hi, hr⟩ | ⟨o, hr, hb⟩
    · subst hi; subst hr
      simp only [Prod.mk.injEq] at hfa
      obtain ⟨h1, h2, h3⟩ := hfa
      subst h1; subst h2; subst h3
      exact ⟨hwf, by simp [alignedB], by simp [inBufB], pullsStar_refl _, by simp [commitStrs]⟩
    · subst hr
      simp only [Prod.mk.injEq] at hfa
      obtain ⟨h1, h2, h3⟩ := hfa
      subst h1; subst h2; subst h3
      obtain ⟨w, a2, ib, p, cS, -⟩ := bump_sound hwf hb
      exact ⟨w, a2, ib, p, cS.symm⟩
  | opEatTwoDashes t =>
    simp only [stepT, Option.map_eq_some'] at h
    obtain ⟨⟨i1, r⟩, ha, hfa⟩ := h
    rcases eat_two_dashes_elim ha with ⟨hi, hr⟩ | ⟨o, hr, hb⟩
    · subst hi; subst hr
      simp only [Prod.mk.injEq] at hfa
      obtain ⟨h1, h2, h3⟩ := hfa
      subst h1; subst h2; subst h3
      exact ⟨hwf, by simp [alignedB], by simp [inBufB], pullsStar_refl _, by simp [commitStrs]⟩
    · subst hr
      simp only [Prod.mk.injEq] at hfa
      obtain ⟨h1, h2, h3⟩ := hfa
      subst h1; subst h2; subst h3
      obtain ⟨w, a2, ib, p, cS, -⟩ := bump_sound hwf hb
      exact ⟨w, a2, ib, p, cS.symm⟩
  | opEatValue t =>
    simp only [stepT, Option.map_eq_some'] at h
    obtain ⟨⟨i1, r⟩, ha, hfa⟩ := h
    rcases eat_value_elim ha with ⟨hi, hr⟩ | ⟨o, hr, hb⟩
    · subst hi; subst hr
      simp only [Prod.mk.injEq] at hfa
      obtain ⟨h1, h2, h3⟩ := hfa
      subst h1; subst h2; subst h3
      exact ⟨hwf, by simp [alignedB], by simp [inBufB], pullsStar_refl _, by simp [commitStrs]⟩
    · subst hr
      simp only [Prod.mk.injEq] at hfa
      obtain ⟨h1, h2, h3⟩ := hfa
      subst h1; subst h2; subst h3
      obtain ⟨w, a2, ib, p, cS, -⟩ := bump_sound hwf hb
      exact ⟨w, a2, ib, p, cS.symm⟩
  | opEatValueLd t =>
    simp only [stepT, Option.map_eq_some'] at h
    obtain ⟨⟨i1, r⟩, ha, hfa⟩ := h
    rcases eat_value_ld_elim ha with ⟨hi, hr⟩ | ⟨o, hr, hb⟩
    · subst hi; subst hr
      simp only [Prod.mk.injEq] at hfa
      obtain ⟨h1, h2, h3⟩ := hfa
      subst h1; subst h2; subst h3
      exact ⟨hwf, by simp [alignedB], by simp [inBufB], pullsStar_refl _, by simp [commitStrs]⟩
    · subst hr
      simp only [Prod.mk.injEq] at hfa
      obtain ⟨h1, h2, h3⟩ := hfa
      subst h1; subst h2; subst h3
      obtain ⟨w, a2, ib, p, cS, -⟩ := bump_wld_sound hwf hb
      exact ⟨w, a2, ib, p, cS.symm⟩
  | opSetIgnore b =>
    simp only [stepT, Option.some.injEq, Prod.mk.injEq] at h
    obtain ⟨h1, h2, h3⟩ := h
    subst h1; subst h2; subst h3
    obtain ⟨w, f, hb, hi⟩ := set_ignore_sound inp b hwf
    refine ⟨w, by simp [alignedB, f], by simp [inBufB], ?_, by simp [commitStrs]⟩
    exact ⟨[], by simp [hi], by simp [hb, concatL]⟩

/-- Soundness of an instrumented run, by induction over the operations. -/
theorem runT_sound {ops : List Op} :
    ∀ {inp st : ArgsInput} {cs : List Chunk} {outs : List (List Char)},
    wfB inp = true → runT inp ops = some (st, cs, outs) →
    wfB st = true ∧
    alignedB (frontier inp) cs (frontier st) = true ∧
    inBufB st.buf cs = true ∧
    pullsStar inp st ∧
    outs = commitStrs cs := by
  induction ops with
  | nil =>
    intro inp st cs outs hwf h
    simp only [runT, Option.some.injEq, Prod.mk.injEq] at h
    obtain ⟨h1, h2, h3⟩ := h
    subst h1; subst h2; subst h3
    exact ⟨hwf, by simp [alignedB], by simp [inBufB], pullsStar_refl _, by simp [commitStrs]⟩
  | cons op ops ih =>
    intro inp st cs outs hwf h
    simp only [runT] at h
    split at h
    next i1 c1 o1 hstep =>
      split at h
      next i2 c2 o2 hrun =>
        simp only [Option.some.injEq, Prod.mk.injEq] at h
        obtain ⟨h1, h2, h3⟩ := h
        subst h1; subst h2; subst h3
        obtain ⟨w1, a1, b1, p1, e1⟩ := stepT_sound hwf hstep
        obtain ⟨w2, a2, b2, p2, e2⟩ := ih w1 hrun
        refine ⟨w2, alignedB_append a1 a2, ?_, pullsStar_trans p1 p2, ?_⟩
        · rw [inBufB_append]
          obtain ⟨pre, -, hbuf⟩ := p2
          rw [hbuf] at b2 ⊢
          simp [inBufB_mono b1, b2]
        · rw [commitStrs_append, e1, e2]
      next hrun => exact Option.noConfusion h
    next hstep => exact Option.noConfusion h

theorem currentView_some {inp : ArgsInput} {s : List Char} {k : TokenKind}
    (h : inp.currentView = some (s, k)) :
    ∃ cur cwd, inp.current = some (cur, cwd, k) ∧ s = inp.buf.drop cur := by
  unfold ArgsInput.currentView at h
  split at h
  next cur cwd kind hcur =>
    simp only [Option.some.injEq, Prod.mk.injEq] at h
    exact ⟨cur, cwd, by rw [hcur, h.2], h.1.symm⟩
  next => exact Option.noConfusion h

theorem current_str_wld_some {inp : ArgsInput} {s : List Char}
    (h : inp.current_str_with_leading_dashes = some s) :
    ∃ cur cwd k, inp.current = some (cur, cwd, k) ∧ s = inp.buf.drop cwd := by
  unfold ArgsInput.current_str_with_leading_dashes at h
  split at h
  next cur cwd kind hcur =>
    simp only [Option.some.injEq] at h
    exact ⟨cur, cwd, kind, hcur, h.symm⟩
  next => exact Option.noConfusion h

/-- A successful `bump` whose length is the length of a front segment of
the current view returns exactly that segment. -/
theorem bump_out_of_startsWith {inp inp' : ArgsInput} {out t : List Char}
    {cur cwd : Nat} {kind : TokenKind}
    (hcur : inp.current = some (cur, cwd, kind))
    (hsw : startsWithL (inp.buf.drop cur) t = true)
    (h : inp.bump t.length = some (inp', out)) :
    out = t := by
  have hlen : t.length ≤ inp.buf.length - cur := by
    have := startsWithL_length hsw
    simp only [List.length_drop] at this
    omega
  unfold ArgsInput.bump at h
  simp only [hcur] at h
  rw [if_neg (show ¬ t.length > inp.buf.length - cur by omega)] at h
  split at h
  next hfull =>
    split at h
    next s rest hiter =>
      simp only [Option.some.injEq, Prod.mk.injEq] at h
      rw [← h.2]
      rcases le_or_lt cur inp.buf.length with hle | hgt
      · unfold sl
        rw [List.drop_append_of_le_length hle]
        exact startsWithL_take (startsWithL_append hsw)
      · have : t.length = 0 := by omega
        rw [List.length_eq_zero] at this
        subst this
        simp [sl]
    next hiter =>
      simp only [Option.some.injEq, Prod.mk.injEq] at h
      rw [← h.2]
      exact startsWithL_take hsw
  next hfull =>
    split at h
    next c htr =>
      simp only [Option.some.injEq, Prod.mk.injEq] at h
      rw [← h.2]
      exact startsWithL_take hsw
    next => exact Option.noConfusion h

/-- `trim_equals` returns a value whenever the offset is in range. -/
theorem trim_equals_total {buf : List Char} {p : Nat} (k : TokenKind)
    (hp : ¬ buf.length < p) :
    ∃ c, trim_equals buf p k = some c := by
  rw [trim_equals_cases]
  by_cases hek : eqCheckKind k = true
  · rw [if_pos hek, if_neg hp]
    by_cases heq : (buf.drop p).head? = some '='
    · exact ⟨_, by rw [if_pos heq]⟩
    · exact ⟨_, by rw [if_neg heq]⟩
  · exact ⟨_, by rw [if_neg hek]⟩

/-- `bump` succeeds whenever the requested length fits in the current
view. -/
theorem bump_some_of_le {inp : ArgsInput} {cur cwd : Nat} {kind : TokenKind} {len : Nat}
    (hcur : inp.current = some (cur, cwd, kind))
    (hle : len ≤ inp.buf.length - cur) :
    ∃ inp2 out, inp.bump len = some (inp2, out) := by
  unfold ArgsInput.bump
  simp only [hcur]
  rw [if_neg (show ¬ len > inp.buf.length - cur by omega)]
  by_cases hfull : inp.buf.length - cur = len
  · rw [if_pos hfull]
    cases inp.iter with
    | nil => exact ⟨_, _, rfl⟩
    | cons s rest => exact ⟨_, _, rfl⟩
  · rw [if_neg hfull]
    obtain ⟨c, hc⟩ := trim_equals_total kind (by omega : ¬ inp.buf.length < cur + len)
    rw [hc]
    exact ⟨_, _, rfl⟩

theorem new_wf (args : List (List Char)) : wfB (ArgsInput.new args) = true := by
  cases args with
  | nil => rfl
  | cons a rest =>
    rcases htld : trim_leading_dashes false a 0 with ⟨tc, tw, tk⟩
    have hraw := trim_leading_dashes_raw false a 0
    have hbnd := trim_leading_dashes_bounds false a 0
    rw [htld] at hraw hbnd
    simp only at hraw hbnd
    subst hraw
    simp only [ArgsInput.new, wfB, htld, Bool.and_eq_true, Bool.or_eq_true, decide_eq_true_eq]
    refine ⟨⟨hbnd.1, by have := hbnd.2.1; omega⟩, ?_⟩
    by_cases hek : eqCheckKind tk = true
    · exact Or.inl hek
    · exact Or.inr (hbnd.2.2 (by simpa using hek))

theorem new_frontier (args : List (List Char)) : frontier (ArgsInput.new args) = 0 := by
  cases args with
  | nil => rfl
  | cons a rest =>
    rcases htld : trim_leading_dashes false a 0 with ⟨tc, tw, tk⟩
    have hraw := trim_leading_dashes_raw false a 0
    rw [htld] at hraw
    simp only at hraw
    simp only [ArgsInput.new, frontier, htld]
    exact hraw

theorem pullsStar_new {args : List (List Char)} {st : ArgsInput}
    (p : pullsStar (ArgsInput.new args) st) :
    ∃ k, k ≤ args.length ∧ st.buf = concatL (args.take k) ∧ st.iter = args.drop k := by
  obtain ⟨pre, hiter, hbuf⟩ := p
  cases args with
  | nil =>
    simp only [ArgsInput.new] at hiter hbuf
    have hpre : pre = [] := by cases pre <;> simp_all
    subst hpre
    simp only [concatL] at hbuf
    refine ⟨0, by simp, by simpa using hbuf, by simpa using hiter.symm⟩
  | cons a rest =>
    simp only [ArgsInput.new] at hiter hbuf
    have hpre : rest.take pre.length = pre := by
      rw [hiter, List.take_left]
    refine ⟨pre.length + 1, ?_, ?_, ?_⟩
    · have : pre.length ≤ rest.length := by rw [hiter]; simp
      simp only [List.length_cons]
      omega
    · rw [show (a :: rest).take (pre.length + 1) = a :: rest.take pre.length from rfl, hpre]
      rw [hbuf]
      simp [concatL]
    · rw [show (a :: rest).drop (pre.length + 1) = rest.drop pre.length from rfl, hiter,
        List.drop_left]

/-- `bump` panics exactly when the input is exhausted or `len` exceeds the
bytes remaining after `contentStart`. -/
theorem bump_none_iff (inp : ArgsInput) (len : Nat) :
    inp.bump len = none ↔
      inp.current = none ∨ ∃ cur cwd kind, inp.current = some (cur, cwd, kind) ∧
        len > inp.buf.length - cur := by
  rcases hcur : inp.current with _ | ⟨cur, cwd, kind⟩
  · constructor
    · intro _; exact Or.inl rfl
    · intro _
      unfold ArgsInput.bump
      simp [hcur]
  · constructor
    · intro h
      unfold ArgsInput.bump at h
      simp only [hcur] at h
      by_cases hg : len > inp.buf.length - cur
      · exact Or.inr ⟨cur, cwd, kind, rfl, hg⟩
      · exfalso
        rw [if_neg hg] at h
        by_cases hfull : inp.buf.length - cur = len
        · rw [if_pos hfull] at h
          rcases hiter : inp.iter with _ | ⟨s, rest⟩ <;> simp only [hiter] at h <;>
            exact Option.noConfusion h
        · rw [if_neg hfull] at h
          obtain ⟨c, hc⟩ := trim_equals_total kind
            (show ¬ inp.buf.length < cur + len by omega)
          rw [hc] at h
          exact Option.noConfusion h
    · rintro (hnone | ⟨c2, w2, k2, hceq, hgt⟩)
      · exact Option.noConfusion hnone
      · simp only [Option.some.injEq, Prod.mk.injEq] at hceq
        obtain ⟨h1, h2, h3⟩ := hceq
        subst h1; subst h2; subst h3
        unfold ArgsInput.bump
        simp only [hcur]
        rw [if_pos hgt]

/-- `bump_with_leading_dashes` panics exactly when the input is exhausted,
`len` exceeds the bytes remaining after `rawStart`, or the commit is
partial and the equals-classification offset `contentStart + len` lands
beyond the buffer for a kind that checks for an equals sign. -/
theorem bump_wld_none_iff (inp : ArgsInput) (len : Nat) :
    inp.bump_with_leading_dashes len = none ↔
      inp.current = none ∨ ∃ cur cwd kind, inp.current = some (cur, cwd, kind) ∧
        (len > inp.buf.length - cwd ∨
          (len < inp.buf.length - cwd ∧ eqCheckKind kind = true ∧
            inp.buf.length < cur + len)) := by
  rcases hcur : inp.current with _ | ⟨cur, cwd, kind⟩
  · constructor
    · intro _; exact Or.inl rfl
    · intro _
      unfold ArgsInput.bump_with_leading_dashes
      simp [hcur]
  · constructor
    · intro h
      unfold ArgsInput.bump_with_leading_dashes at h
      simp only [hcur] at h
      by_cases hg : len > inp.buf.length - cwd
      · exact Or.inr ⟨cur, cwd, kind, rfl, Or.inl hg⟩
      · rw [if_neg hg] at h
        by_cases hfull : inp.buf.length - cwd = len
        · exfalso
          rw [if_pos hfull] at h
          rcases hiter : inp.iter with _ | ⟨s, rest⟩ <;> simp only [hiter] at h <;>
            exact Option.noConfusion h
        · rw [if_neg hfull] at h
          have hpart : len < inp.buf.length - cwd := by omega
          by_cases hoob : inp.buf.length < cur + len
          · by_cases hek : eqCheckKind kind = true
            · exact Or.inr ⟨cur, cwd, kind, rfl, Or.inr ⟨hpart, hek, hoob⟩⟩
            · exfalso
              rw [trim_equals_cases, if_neg hek] at h
              exact Option.noConfusion h
          · exfalso
            obtain ⟨c, hc⟩ := trim_equals_total kind hoob
            rw [hc] at h
            exact Option.noConfusion h
    · rintro (hnone | ⟨c2, w2, k2, hceq, hcond⟩)
      · exact Option.noConfusion hnone
      · simp only [Option.some.injEq, Prod.mk.injEq] at hceq
        obtain ⟨h1, h2, h3⟩ := hceq
        subst h1; subst h2; subst h3
        unfold ArgsInput.bump_with_leading_dashes
        simp only [hcur]
        rcases hcond with hg | ⟨hpart, hek, hoob⟩
        · rw [if_pos hg]
        · rw [if_neg (show ¬ len > inp.buf.length - cwd by omega),
            if_neg (show ¬ inp.buf.length - cwd = len by omega)]
          rw [trim_equals_cases, if_pos hek, if_pos hoob]

/-- A successful `bump` returns a slice of exactly `len` bytes. -/
theorem bump_out_length {inp inp' : ArgsInput} {len : Nat} {out : List Char}
    (h : inp.bump len = some (inp', out)) : out.length = len := by
  rcases hcur : inp.current with _ | ⟨cur, cwd, kind⟩
  · unfold ArgsInput.bump at h
    simp only [hcur] at h
    exact Option.noConfusion h
  · unfold ArgsInput.bump at h
    simp only [hcur] at h
    split at h
    next hg => exact Option.noConfusion h
    next hg =>
    split at h
    next hfull =>
      split at h
      next s rest hiter =>
        simp only [Option.some.injEq, Prod.mk.injEq] at h
        rw [← h.2]
        simp only [sl_length, List.length_append]
        omega
      next hiter =>
        simp only [Option.some.injEq, Prod.mk.injEq] at h
        rw [← h.2]
        simp only [sl_length]
        omega
    next hfull =>
      split at h
      next c htr =>
        simp only [Option.some.injEq, Prod.mk.injEq] at h
        rw [← h.2]
        simp only [sl_length]
        omega
      next => exact Option.noConfusion h

/-- A successful `bump_with_leading_dashes` returns a slice of exactly
`len` bytes. -/
theorem bump_wld_out_length {inp inp' : ArgsInput} {len : Nat} {out : List Char}
    (h : inp.bump_with_leading_dashes len = some (inp', out)) : out.length = len := by
  rcases hcur : inp.current with _ | ⟨cur, cwd, kind⟩
  · unfold ArgsInput.bump_with_leading_dashes at h
    simp only [hcur] at h
    exact Option.noConfusion h
  · unfold ArgsInput.bump_with_leading_dashes at h
    simp only [hcur] at h
    split at h
    next hg => exact Option.noConfusion h
    next hg =>
    split at h
    next hfull =>
      split at h
      next s rest hiter =>
        simp only [Option.some.injEq, Prod.mk.injEq] at h
        rw [← h.2]
        simp only [sl_length, List.length_append]
        omega
      next hiter =>
        simp only [Option.some.injEq, Prod.mk.injEq] at h
        rw [← h.2]
        simp only [sl_length]
        omega
    next hfull =>
      split at h
      next c htr =>
        simp only [Option.some.injEq, Prod.mk.injEq] at h
        rw [← h.2]
        simp only [sl_length]
        omega
      next => exact Option.noConfusion h

/-! ### Claim theorems -/

/-- Claim C1, counterexample. On the single raw argument `-a`, the one
successful commit of the run — `eat_one_dash "a"` — returns the slice `a`
of length 1 and exhausts the tokenizer, so the whole raw text `-a`
(2 bytes) has been consumed; yet the committed lengths sum to 1 ≠ 2 and
the committed slices concatenate to `a` ≠ `-a`: the leading dash skipped
by dash classification is in no committed slice. -/
theorem conservation_counterexample :
    runT (ArgsInput.new [['-', 'a']]) [Op.opEatOneDash ['a']] =
      some ({ current := none, iter := [], buf := ['-', 'a'], ignore_dashes := false },
        [⟨0, ['-'], false⟩, ⟨1, ['a'], true⟩], [['a']]) ∧
    (concatL [['a']]).length = 1 ∧
    ({ current := none, iter := [], buf := ['-', 'a'],
       ignore_dashes := false } : ArgsInput).buf.length = 2 ∧
    concatL [['a']] ≠ ['-', 'a'] := by
  decide

/-- Claim C1 (amended): over any run from `ArgsInput.new args`, the
returned slices are exactly the committed chunks; the committed and
skipped chunks (stripped dash bytes and elided equals signs),
concatenated in commit order, reconstruct the consumed raw text up to the
raw cursor byte for byte; the committed plus skipped lengths sum to the
raw-cursor offset; the buffer always holds the concatenation of the raw
arguments pulled so far; and once the tokenizer is exhausted the chunks
reconstruct the entire consumed raw text and their lengths sum to its
total byte length. -/
theorem conservation_run {args : List (List Char)} {ops : List Op} {st : ArgsInput}
    {cs : List Chunk} {outs : List (List Char)}
    (h : runT (ArgsInput.new args) ops = some (st, cs, outs)) :
    outs = commitStrs cs ∧
    chunkConcat cs = st.buf.take (frontier st) ∧
    sumCom cs + sumSkip cs = frontier st ∧
    (∃ k, k ≤ args.length ∧ st.buf = concatL (args.take k) ∧ st.iter = args.drop k) ∧
    (st.current = none →
      chunkConcat cs = st.buf ∧ sumCom cs + sumSkip cs = st.buf.length) := by
  obtain ⟨w, a, b, p, e⟩ := runT_sound (new_wf args) h
  rw [new_frontier args] at a
  have hconcat := aligned_inBuf_concat a b
  rw [Nat.sub_zero] at hconcat
  have hsum := alignedB_sumLens a
  have hcs : chunkConcat cs = st.buf.take (frontier st) := by
    rw [take_eq_sl]
    exact hconcat
  have hsum2 : sumCom cs + sumSkip cs = frontier st := by
    rw [sumCom_add_sumSkip]
    omega
  refine ⟨e, hcs, hsum2, pullsStar_new p, fun hn => ?_⟩
  have hf : frontier st = st.buf.length := by simp [frontier, hn]
  constructor
  · rw [hcs, hf, List.take_length]
  · rw [hsum2, hf]

/-- Witness for `conservation_run` at the concrete run
`["ab"]; eat_no_dash "ab"`. -/
theorem conservation_run_witness :
    [['a', 'b']] = commitStrs wCs ∧
    chunkConcat wCs = wSt.buf.take (frontier wSt) ∧
    sumCom wCs + sumSkip wCs = frontier wSt ∧
    (∃ k, k ≤ [['a', 'b']].length ∧ wSt.buf = concatL ([['a', 'b']].take k) ∧
      wSt.iter = [['a', 'b']].drop k) ∧
    (wSt.current = none → chunkConcat wCs = wSt.buf ∧
      sumCom wCs + sumSkip wCs = wSt.buf.length) :=
  @conservation_run [['a', 'b']] [Op.opEatNoDash ['a', 'b']] wSt wCs [['a', 'b']] (by decide)

/-- Claim C2, counterexample. `set_ignore_dashes true` on a fresh `--a`
token moves `contentStart` from 2 back to 0 (to `rawStart`), so the cursor
offset `contentStart` is not non-decreasing across `set_ignore_dashes`
toggles. -/
theorem monotonicity_counterexample :
    (ArgsInput.new [['-', '-', 'a']]).current = some (2, 0, TokenKind.TwoDashes) ∧
    ((ArgsInput.new [['-', '-', 'a']]).set_ignore_dashes true).current =
      some (0, 0, TokenKind.NoDash) ∧
    (0 : Nat) < 2 := by
  decide

/-- Claim C2 (amended): across any run, the raw cursor (`rawStart`, or the
end of the buffer once exhausted) is non-decreasing; every chunk retired
before an intermediate state ends at or before that state's raw cursor;
every chunk retired afterwards starts at or after it; and the final
exposures (`current`, `current_str_with_leading_dashes`) read from offsets
at or after it, with `rawStart ≤ contentStart` throughout. `contentStart`
itself may decrease — back to no less than `rawStart` — when
`set_ignore_dashes` re-classifies the current token. -/
theorem monotonicity_run {args : List (List Char)} {ops1 ops2 : List Op}
    {mid fin : ArgsInput} {c1 c2 : List Chunk} {o1 o2 : List (List Char)}
    (h1 : runT (ArgsInput.new args) ops1 = some (mid, c1, o1))
    (h2 : runT mid ops2 = some (fin, c2, o2)) :
    frontier mid ≤ frontier fin ∧
    (∀ c ∈ c1, c.pos + c.str.length ≤ frontier mid) ∧
    (∀ c ∈ c2, frontier mid ≤ c.pos ∧ c.pos + c.str.length ≤ frontier fin) ∧
    (∀ cur cwd kind, fin.current = some (cur, cwd, kind) →
      frontier mid ≤ cwd ∧ cwd ≤ cur) := by
  obtain ⟨w1, a1, b1, p1, e1⟩ := runT_sound (new_wf args) h1
  obtain ⟨w2, a2, b2, p2, e2⟩ := runT_sound w1 h2
  refine ⟨alignedB_le a2, ?_, ?_, ?_⟩
  · intro c hc
    exact (alignedB_bounds a1 c hc).2
  · intro c hc
    exact alignedB_bounds a2 c hc
  · intro cur cwd kind hc
    obtain ⟨hwle2, -, -⟩ := wfB_some hc w2
    have hf : frontier fin = cwd := frontier_some hc
    exact ⟨hf ▸ alignedB_le a2, hwle2⟩

/-- Witness for `monotonicity_run` at the concrete two-phase run
`["-a", "-b"]; eat_one_dash "a" / eat_one_dash "b"`. -/
theorem monotonicity_run_witness :
    frontier w2Mid ≤ frontier w2Fin ∧
    (∀ c ∈ w2C1, c.pos + c.str.length ≤ frontier w2Mid) ∧
    (∀ c ∈ w2C2, frontier w2Mid ≤ c.pos ∧ c.pos + c.str.length ≤ frontier w2Fin) ∧
    (∀ cur cwd kind, w2Fin.current = some (cur, cwd, kind) →
      frontier w2Mid ≤ cwd ∧ cwd ≤ cur) :=
  @monotonicity_run [['-', 'a'], ['-', 'b']] [Op.opEatOneDash ['a']] [Op.opEatOneDash ['b']]
    w2Mid w2Fin w2C1 w2C2 [['a']] [['b']] (by decide) (by decide)

/-- Claim C3: after a partial `bump` (length strictly below the remaining
view), the new cursor follows the equals-classification table: `NoDash`
stays `NoDash` (an `=` is never skipped), `OneDash` becomes `AfterEquals`
with both offsets past the `=` if one is next and `AfterOneDash`
otherwise, `TwoDashes` and `AfterOneDash` skip an `=` into `AfterEquals`
or keep their kind, and `AfterEquals` stays `AfterEquals`. -/
theorem equals_classification {inp inp' : ArgsInput} {cur cwd : Nat} {kind : TokenKind}
    {len : Nat} {out : List Char}
    (hcur : inp.current = some (cur, cwd, kind))
    (h : inp.bump len = some (inp', out))
    (hpart : len < inp.buf.length - cur) :
    inp'.current =
      match kind with
      | TokenKind.NoDash => some (cur + len, cur + len, TokenKind.NoDash)
      | TokenKind.OneDash =>
        if (inp.buf.drop (cur + len)).head? = some '=' then
          some (cur + len + 1, cur + len + 1, TokenKind.AfterEquals)
        else some (cur + len, cur + len, TokenKind.AfterOneDash)
      | TokenKind.TwoDashes =>
        if (inp.buf.drop (cur + len)).head? = some '=' then
          some (cur + len + 1, cur + len + 1, TokenKind.AfterEquals)
        else some (cur + len, cur + len, TokenKind.TwoDashes)
      | TokenKind.AfterOneDash =>
        if (inp.buf.drop (cur + len)).head? = some '=' then
          some (cur + len + 1, cur + len + 1, TokenKind.AfterEquals)
        else some (cur + len, cur + len, TokenKind.AfterOneDash)
      | TokenKind.AfterEquals => some (cur + len, cur + len, TokenKind.AfterEquals) := by
  unfold ArgsInput.bump at h
  simp only [hcur] at h
  rw [if_neg (show ¬ len > inp.buf.length - cur by omega),
    if_neg (show ¬ inp.buf.length - cur = len by omega)] at h
  have hnoob : ¬ inp.buf.length < cur + len := by omega
  cases kind with
  | NoDash =>
    simp only [trim_equals] at h
    simp only [Option.some.injEq, Prod.mk.injEq] at h
    rw [← h.1]
  | OneDash =>
    simp only [trim_equals, if_neg hnoob] at h
    by_cases hP : (inp.buf.drop (cur + len)).head? = some '='
    · rw [if_pos hP] at h
      simp only [Option.some.injEq, Prod.mk.injEq] at h
      rw [← h.1]
      simp only [List.head?_drop] at hP
      simp [hP]
    · rw [if_neg hP] at h
      simp only [Option.some.injEq, Prod.mk.injEq] at h
      rw [← h.1]
      simp only [List.head?_drop] at hP
      simp [hP]
  | TwoDashes =>
    simp only [trim_equals, if_neg hnoob] at h
    by_cases hP : (inp.buf.drop (cur + len)).head? = some '='
    · rw [if_pos hP] at h
      simp only [Option.some.injEq, Prod.mk.injEq] at h
      rw [← h.1]
      simp only [List.head?_drop] at hP
      simp [hP]
    · rw [if_neg hP] at h
      simp only [Option.some.injEq, Prod.mk.injEq] at h
      rw [← h.1]
      simp only [List.head?_drop] at hP
      simp [hP]
  | AfterOneDash =>
    simp only [trim_equals, if_neg hnoob] at h
    by_cases hP : (inp.buf.drop (cur + len)).head? = some '='
    · rw [if_pos hP] at h
      simp only [Option.some.injEq, Prod.mk.injEq] at h
      rw [← h.1]
      simp only [List.head?_drop] at hP
      simp [hP]
    · rw [if_neg hP] at h
      simp only [Option.some.injEq, Prod.mk.injEq] at h
      rw [← h.1]
      simp only [List.head?_drop] at hP
      simp [hP]
  | AfterEquals =>
    simp only [trim_equals] at h
    simp only [Option.some.injEq, Prod.mk.injEq] at h
    rw [← h.1]

/-- Witness for `equals_classification`: bumping one byte of the `-ab`
token leaves an `AfterOneDash` cursor with both offsets at 2. -/
theorem equals_classification_witness :
    ({ current := some (2, 2, TokenKind.AfterOneDash), iter := [],
       buf := ['-', 'a', 'b'], ignore_dashes := false } : ArgsInput).current =
      some (2, 2, TokenKind.AfterOneDash) := by
  have hcur : (ArgsInput.new [['-', 'a', 'b']]).current =
      some (1, 0, TokenKind.OneDash) := by decide
  have hb : (ArgsInput.new [['-', 'a', 'b']]).bump 1 =
      some ({ current := some (2, 2, TokenKind.AfterOneDash), iter := [],
              buf := ['-', 'a', 'b'], ignore_dashes := false }, ['a']) := by decide
  have hpart : 1 < (ArgsInput.new [['-', 'a', 'b']]).buf.length - 1 := by decide
  exact equals_classification hcur hb hpart

/-- Claim C4: dash classification of a freshly appended raw argument. With
the ignore flag, always `NoDash` with no skip; otherwise a `--` front
(three or more dashes included) gives `TwoDashes` skipping 2, a single `-`
front (not `--`) gives `OneDash` skipping 1, anything else `NoDash` with
no skip. -/
theorem dash_classification (ignore : Bool) (s : List Char) (r : Nat) :
    (ignore = true → trim_leading_dashes ignore s r = (r, r, TokenKind.NoDash)) ∧
    (ignore = false → startsWithL s ['-', '-'] = true →
      trim_leading_dashes ignore s r = (r + 2, r, TokenKind.TwoDashes)) ∧
    (ignore = false → startsWithL s ['-'] = true → startsWithL s ['-', '-'] = false →
      trim_leading_dashes ignore s r = (r + 1, r, TokenKind.OneDash)) ∧
    (ignore = false → startsWithL s ['-'] = false →
      trim_leading_dashes ignore s r = (r, r, TokenKind.NoDash)) := by
  refine ⟨?_, ?_, ?_, ?_⟩
  · intro h
    subst h
    simp [trim_leading_dashes]
  · intro h h2
    subst h
    simp [trim_leading_dashes, h2]
  · intro h h2 h3
    subst h
    simp [trim_leading_dashes, h2, h3]
  · intro h h2
    subst h
    have h3 : startsWithL s ['-', '-'] = false := by
      cases s with
      | nil => rfl
      | cons a as =>
        simp only [startsWithL, Bool.and_eq_true, Bool.and_true] at h2 ⊢
        cases hq : (a == '-') with
        | true => rw [hq] at h2; simp at h2
        | false => simp [hq]
    simp [trim_leading_dashes, h2, h3]

/-- Witness for `dash_classification`: a three-dash argument is still
`TwoDashes`, skipping exactly two dashes. -/
theorem dash_classification_witness :
    trim_leading_dashes false ['-', '-', '-', 'x'] 5 = (7, 5, TokenKind.TwoDashes) :=
  (dash_classification false ['-', '-', '-', 'x'] 5).2.1 rfl (by decide)

/-- Claim C5: `eat_two_dashes target` succeeds exactly when the cursor is
present with kind `TwoDashes` and the dash-stripped view equals the target
or starts with the target followed immediately by `=`; on success the
returned slice is the target itself (the `=` is never part of it), so
exactly the target's byte length is committed. -/
theorem eat_two_dashes_spec (inp : ArgsInput) (t : List Char) :
    (∀ inp' out, inp.eat_two_dashes t = some (inp', some out) →
      out = t ∧ ∃ s, inp.currentView = some (s, TokenKind.TwoDashes) ∧
        (s = t ∨ (startsWithL s t = true ∧ (s.drop t.length).head? = some '='))) ∧
    ((∃ s, inp.currentView = some (s, TokenKind.TwoDashes) ∧
        (s = t ∨ (startsWithL s t = true ∧ (s.drop t.length).head? = some '='))) →
      ∃ inp', inp.eat_two_dashes t = some (inp', some t)) := by
  constructor
  · intro inp' out h
    unfold ArgsInput.eat_two_dashes at h
    repeat' split at h
    all_goals
      first
      | (exact Option.noConfusion h)
      | (simp only [Option.some.injEq, Prod.mk.injEq] at h
         exact Option.noConfusion h.2)
      | (rename_i s hcv hsw hcond x inp2 o hb
         simp only [Option.some.injEq, Prod.mk.injEq] at h
         obtain ⟨h1, h2⟩ := h
         obtain ⟨cur, cwd, hcur, hs⟩ := currentView_some hcv
         have hout : o = t := bump_out_of_startsWith hcur (hs ▸ hsw) hb
         refine ⟨by rw [← h2, hout], s, hcv, ?_⟩
         rcases hcond with hnil | hhead
         · exact Or.inl (startsWithL_drop_nil hsw hnil)
         · exact Or.inr ⟨hsw, hhead⟩)
  · rintro ⟨s, hcv, hcond⟩
    obtain ⟨cur, cwd, hcur, hs⟩ := currentView_some hcv
    have hsw : startsWithL s t = true := by
      rcases hcond with rfl | ⟨hsw, -⟩
      · exact startsWithL_self _
      · exact hsw
    have hlen : t.length ≤ inp.buf.length - cur := by
      have h1 := startsWithL_length hsw
      rw [hs] at h1
      simp only [List.length_drop] at h1
      omega
    obtain ⟨inp2, o, hb⟩ := bump_some_of_le hcur hlen
    have hout : o = t := bump_out_of_startsWith hcur (hs ▸ hsw) hb
    have hcondP : s.drop t.length = [] ∨ (s.drop t.length).head? = some '=' := by
      rcases hcond with rfl | ⟨-, hd⟩
      · exact Or.inl (by simp)
      · exact Or.inr hd
    refine ⟨inp2, ?_⟩
    unfold ArgsInput.eat_two_dashes
    simp only [hcv]
    rw [if_pos hsw, if_pos hcondP, hb, hout]

/-- Witness for `eat_two_dashes_spec`: on `--a=b`, eating `a` succeeds and
returns `a`. -/
theorem eat_two_dashes_spec_witness :
    ∃ inp', (ArgsInput.new [['-', '-', 'a', '=', 'b']]).eat_two_dashes ['a'] =
      some (inp', some ['a']) :=
  (eat_two_dashes_spec (ArgsInput.new [['-', '-', 'a', '=', 'b']]) ['a']).2
    ⟨['a', '=', 'b'], by decide, by decide⟩

/-- Claim C6: `eat_value target` succeeds exactly when the cursor is
present with kind `NoDash`, `AfterOneDash` or `AfterEquals` and the view
equals the target exactly; on success the returned slice is the target;
for `OneDash` or `TwoDashes` it fails regardless of the view, leaving the
state unchanged. -/
theorem eat_value_spec (inp : ArgsInput) (t : List Char) :
    (∀ inp' out, inp.eat_value t = some (inp', some out) →
      out = t ∧ ∃ s k, inp.currentView = some (s, k) ∧ s = t ∧
        (k = TokenKind.NoDash ∨ k = TokenKind.AfterOneDash ∨ k = TokenKind.AfterEquals)) ∧
    ((∃ s k, inp.currentView = some (s, k) ∧ s = t ∧
        (k = TokenKind.NoDash ∨ k = TokenKind.AfterOneDash ∨ k = TokenKind.AfterEquals)) →
      ∃ inp', inp.eat_value t = some (inp', some t)) ∧
    (∀ s, inp.currentView = some (s, TokenKind.OneDash) →
      inp.eat_value t = some (inp, none)) ∧
    (∀ s, inp.currentView = some (s, TokenKind.TwoDashes) →
      inp.eat_value t = some (inp, none)) := by
  refine ⟨?_, ?_, ?_, ?_⟩
  · intro inp' out h
    unfold ArgsInput.eat_value at h
    repeat' split at h
    all_goals
      first
      | (exact Option.noConfusion h)
      | (simp only [Option.some.injEq, Prod.mk.injEq] at h
         exact Option.noConfusion h.2)
      | (rename_i s hcv hsw hdrop x inp2 o hb
         simp only [Option.some.injEq, Prod.mk.injEq] at h
         obtain ⟨h1, h2⟩ := h
         obtain ⟨cur, cwd, hcur, hs⟩ := currentView_some hcv
         have hseq : s = t := startsWithL_drop_nil hsw hdrop
         have hout : o = t := bump_out_of_startsWith hcur (hs ▸ hsw) hb
         exact ⟨by rw [← h2, hout], s, _, hcv, hseq, by simp⟩)
      | (rename_i s k hcv hsw hdrop x inp2 o hb
         simp only [Option.some.injEq, Prod.mk.injEq] at h
         obtain ⟨h1, h2⟩ := h
         obtain ⟨cur, cwd, hcur, hs⟩ := currentView_some hcv
         have hseq : s = t := startsWithL_drop_nil hsw hdrop
         have hout : o = t := bump_out_of_startsWith hcur (hs ▸ hsw) hb
         exact ⟨by rw [← h2, hout], s, _, hcv, hseq, by simp⟩)
  · rintro ⟨s, k, hcv, rfl, hk⟩
    obtain ⟨cur, cwd, hcur, hs⟩ := currentView_some hcv
    have hlen : s.length ≤ inp.buf.length - cur := by
      have h1 : s.length = (inp.buf.drop cur).length := by rw [← hs]
      simp only [List.length_drop] at h1
      omega
    obtain ⟨inp2, o, hb⟩ := bump_some_of_le hcur hlen
    have hout : o = s := bump_out_of_startsWith hcur (hs ▸ startsWithL_self s) hb
    refine ⟨inp2, ?_⟩
    unfold ArgsInput.eat_value
    simp only [hcv]
    rcases hk with rfl | rfl | rfl <;>
      rw [if_pos (startsWithL_self s), if_pos (show s.drop s.length = [] by simp), hb, hout]
  · intro s hcv
    unfold ArgsInput.eat_value
    simp only [hcv]
  · intro s hcv
    unfold ArgsInput.eat_value
    simp only [hcv]

/-- Witness for `eat_value_spec`: on the plain argument `v`, eating the
value `v` succeeds and returns it. -/
theorem eat_value_spec_witness :
    ∃ inp', (ArgsInput.new [['v']]).eat_value ['v'] = some (inp', some ['v']) :=
  (eat_value_spec (ArgsInput.new [['v']]) ['v']).2.1
    ⟨['v'], TokenKind.NoDash, by decide, rfl, by simp⟩

/-- Claim C7: an `eat_*` call that returns the absent result leaves the
tokenizer state — and hence `current()`, the dash-inclusive view, and the
raw source — byte-for-byte unchanged, for all five operations. -/
theorem failed_eat_noninterference (inp : ArgsInput) (t : List Char) :
    (∀ inp', inp.eat_no_dash t = some (inp', none) →
      inp' = inp ∧ inp'.currentView = inp.currentView ∧
      inp'.current_str_with_leading_dashes = inp.current_str_with_leading_dashes ∧
      inp'.iter = inp.iter) ∧
    (∀ inp', inp.eat_one_dash t = some (inp', none) →
      inp' = inp ∧ inp'.currentView = inp.currentView ∧
      inp'.current_str_with_leading_dashes = inp.current_str_with_leading_dashes ∧
      inp'.iter = inp.iter) ∧
    (∀ inp', inp.eat_two_dashes t = some (inp', none) →
      inp' = inp ∧ inp'.currentView = inp.currentView ∧
      inp'.current_str_with_leading_dashes = inp.current_str_with_leading_dashes ∧
      inp'.iter = inp.iter) ∧
    (∀ inp', inp.eat_value t = some (inp', none) →
      inp' = inp ∧ inp'.currentView = inp.currentView ∧
      inp'.current_str_with_leading_dashes = inp.current_str_with_leading_dashes ∧
      inp'.iter = inp.iter) ∧
    (∀ inp', inp.eat_value_allows_leading_dashes t = some (inp', none) →
      inp' = inp ∧ inp'.currentView = inp.currentView ∧
      inp'.current_str_with_leading_dashes = inp.current_str_with_leading_dashes ∧
      inp'.iter = inp.iter) := by
  refine ⟨?_, ?_, ?_, ?_, ?_⟩
  · intro inp' h
    rcases eat_no_dash_elim h with ⟨hi, -⟩ | ⟨o, ho, -⟩
    · exact ⟨hi, by rw [hi], by rw [hi], by rw [hi]⟩
    · exact Option.noConfusion ho
  · intro inp' h
    rcases eat_one_dash_elim h with ⟨hi, -⟩ | ⟨o, ho, -⟩
    · exact ⟨hi, by rw [hi], by rw [hi], by rw [hi]⟩
    · exact Option.noConfusion ho
  · intro inp' h
    rcases eat_two_dashes_elim h with ⟨hi, -⟩ | ⟨o, ho, -⟩
    · exact ⟨hi, by rw [hi], by rw [hi], by rw [hi]⟩
    · exact Option.noConfusion ho
  · intro inp' h
    rcases eat_value_elim h with ⟨hi, -⟩ | ⟨o, ho, -⟩
    · exact ⟨hi, by rw [hi], by rw [hi], by rw [hi]⟩
    · exact Option.noConfusion ho
  · intro inp' h
    rcases eat_value_ld_elim h with ⟨hi, -⟩ | ⟨o, ho, -⟩
    · exact ⟨hi, by rw [hi], by rw [hi], by rw [hi]⟩
    · exact Option.noConfusion ho

/-- Witness for `failed_eat_noninterference`: `eat_no_dash "y"` fails on
the argument `x` and leaves the state unchanged. -/
theorem failed_eat_noninterference_witness :
    w7 = w7 ∧ w7.currentView = w7.currentView ∧
    w7.current_str_with_leading_dashes = w7.current_str_with_leading_dashes ∧
    w7.iter = w7.iter :=
  (failed_eat_noninterference w7 ['y']).1 w7 (by decide)

/-- Claim C8, counterexample. On the fresh token `--ab` (remaining raw
length 4, `contentStart` 2), `bump_with_leading_dashes 3` satisfies the
claimed precondition `len ≤ remaining`, yet the call still aborts fatally:
the partial-commit branch slices the buffer at `contentStart + len = 5`,
past its end — the Rust code panics with an out-of-bounds index inside
`trim_equals`, not in a guarded branch. -/
theorem commit_contract_counterexample :
    (ArgsInput.new [['-', '-', 'a', 'b']]).current = some (2, 0, TokenKind.TwoDashes) ∧
    (3 : Nat) ≤ (ArgsInput.new [['-', '-', 'a', 'b']]).buf.length - 0 ∧
    (ArgsInput.new [['-', '-', 'a', 'b']]).bump_with_leading_dashes 3 = none := by
  decide

/-- Claim C8 (amended): `bump len` aborts fatally exactly when the input
is exhausted or `len` exceeds the remaining length measured from
`contentStart`; `bump_with_leading_dashes len` aborts exactly when the
input is exhausted, `len` exceeds the remaining length measured from
`rawStart`, or additionally when the commit is partial, the kind makes
equals-classification slice the buffer, and `contentStart + len` lands
past the buffer end. In every non-aborting case the returned slice has
exactly `len` bytes. -/
theorem commit_contract_spec (inp : ArgsInput) (len : Nat) :
    (inp.bump len = none ↔
      inp.current = none ∨ ∃ cur cwd kind, inp.current = some (cur, cwd, kind) ∧
        len > inp.buf.length - cur) ∧
    (inp.bump_with_leading_dashes len = none ↔
      inp.current = none ∨ ∃ cur cwd kind, inp.current = some (cur, cwd, kind) ∧
        (len > inp.buf.length - cwd ∨
          (len < inp.buf.length - cwd ∧ eqCheckKind kind = true ∧
            inp.buf.length < cur + len))) ∧
    (∀ inp' out, inp.bump len = some (inp', out) → out.length = len) ∧
    (∀ inp' out, inp.bump_with_leading_dashes len = some (inp', out) → out.length = len) :=
  ⟨bump_none_iff inp len, bump_wld_none_iff inp len,
    fun _ _ h => bump_out_length h, fun _ _ h => bump_wld_out_length h⟩

/-- Witness for `commit_contract_spec`: a full in-bounds `bump` returns a
slice of exactly the requested length. -/
theorem commit_contract_spec_witness : (['a', 'b'] : List Char).length = 2 :=
  (commit_contract_spec (ArgsInput.new [['a', 'b']]) 2).2.2.1
    { current := none, iter := [], buf := ['a', 'b'], ignore_dashes := false }
    ['a', 'b'] (by decide)

/-- Claim C9: a zero-length commit on a token whose remaining length is
zero is not a no-op: `bump 0` pulls the next raw argument from the source
(appending it to the buffer and re-running dash classification) or
exhausts the tokenizer when the source is empty, and a successful
`eat_value ""` (kinds `NoDash`/`AfterOneDash`/`AfterEquals`) or
`eat_one_dash ""` (kinds `OneDash`/`AfterOneDash`) performs exactly that
`bump 0`. -/
theorem zero_commit_refill {inp : ArgsInput} {cur cwd : Nat} {kind : TokenKind}
    (hcur : inp.current = some (cur, cwd, kind)) (hrem : cur = inp.buf.length) :
    (inp.bump 0 =
      match inp.iter with
      | s :: rest =>
        some ({ current := some (trim_leading_dashes inp.ignore_dashes s cur)
                iter := rest
                buf := inp.buf ++ s
                ignore_dashes := inp.ignore_dashes }, [])
      | [] =>
        some ({ current := none
                iter := inp.iter
                buf := inp.buf
                ignore_dashes := inp.ignore_dashes }, [])) ∧
    ((kind = TokenKind.NoDash ∨ kind = TokenKind.AfterOneDash ∨ kind = TokenKind.AfterEquals) →
      inp.eat_value [] = (inp.bump 0).map (fun r => (r.1, some r.2))) ∧
    ((kind = TokenKind.OneDash ∨ kind = TokenKind.AfterOneDash) →
      inp.eat_one_dash [] = (inp.bump 0).map (fun r => (r.1, some r.2))) := by
  have hcv : inp.currentView = some ([], kind) := by
    unfold ArgsInput.currentView
    simp only [hcur]
    rw [hrem, List.drop_length]
  refine ⟨?_, ?_, ?_⟩
  · unfold ArgsInput.bump
    simp only [hcur]
    rw [if_neg (show ¬ (0 : Nat) > inp.buf.length - cur by omega),
      if_pos (show inp.buf.length - cur = 0 by omega)]
    cases inp.iter with
    | nil => rfl
    | cons s rest => rfl
  · intro hk
    unfold ArgsInput.eat_value
    simp only [hcv]
    rcases hk with rfl | rfl | rfl <;>
      rcases hb0 : inp.bump 0 with _ | ⟨i2, o2⟩ <;> simp [hb0, startsWithL]
  · intro hk
    unfold ArgsInput.eat_one_dash
    simp only [hcv]
    rcases hk with rfl | rfl <;>
      rcases hb0 : inp.bump 0 with _ | ⟨i2, o2⟩ <;> simp [hb0, startsWithL]

/-- Witness for `zero_commit_refill`: after `-gh=` is fully consumed up to
the trailing `=`, `eat_value ""` succeeds and pulls the next argument
`-`. -/
theorem zero_commit_refill_witness :
    w9.eat_value [] =
      some ({ current := some (5, 4, TokenKind.OneDash), iter := [],
              buf := ['-', 'g', 'h', '=', '-'], ignore_dashes := false }, some []) := by
  have hcur : w9.current = some (4, 4, TokenKind.AfterEquals) := rfl
  have hrem : (4 : Nat) = w9.buf.length := by decide
  have h := zero_commit_refill hcur hrem
  rw [h.2.1 (Or.inr (Or.inr rfl)), h.1]
  rfl

/-- Claim C10: `InputPart.take n` (and `InputPartLd.take n`) sets the
claimed length to `n` unconditionally, with no clamping; the shrink
behaviour (`len = n`, `as_str` the first `n` bytes of the original claim)
holds only when `n` is at most the current claim and the claim fits the
view; when `n` exceeds the remaining token, `as_str` indexes past the view
(a panic) and `eat` reaches the fatal branch of `bump`. -/
theorem take_no_clamp (p : InputPart) (n : Nat) :
    ((p.take n).len = n) ∧
    (∀ s k, p.input.currentView = some (s, k) →
      (n ≤ p.len → p.len ≤ s.length →
        (p.take n).as_str = some (s.take n) ∧
        (p.take n).as_str = p.as_str.map (fun v => v.take n)) ∧
      (s.length < n → (p.take n).as_str = none ∧ (p.take n).eat = none)) ∧
    (∀ q : InputPartLd, (q.take n).len = n) := by
  refine ⟨rfl, ?_, fun q => rfl⟩
  intro s k hcv
  constructor
  · intro hn hp
    constructor
    · unfold InputPart.as_str InputPart.take
      simp only [hcv]
      rw [if_pos (show n ≤ s.length by omega)]
    · unfold InputPart.as_str InputPart.take
      simp only [hcv]
      rw [if_pos (show n ≤ s.length by omega), if_pos hp]
      have htk : (s.take p.len).take n = s.take n := by
        rw [List.take_take]
        congr 1
        omega
      simp [htk]
  · intro hgt
    constructor
    · unfold InputPart.as_str InputPart.take
      simp only [hcv]
      rw [if_neg (show ¬ n ≤ s.length by omega)]
    · unfold InputPart.eat InputPart.take
      obtain ⟨cur, cwd, hcur, hs⟩ := currentView_some hcv
      rw [bump_none_iff]
      refine Or.inr ⟨cur, cwd, k, hcur, ?_⟩
      have hsl : s.length = p.input.buf.length - cur := by
        rw [hs, List.length_drop]
      show n > p.input.buf.length - cur
      omega

/-- Witness for `take_no_clamp`: on the two-byte claim over `ab`,
`take 5` keeps length 5 and makes `as_str`/`eat` fatal, while `take 1`
yields the first byte. -/
theorem take_no_clamp_witness :
    ((w10.take 5).len = 5) ∧ ((w10.take 5).as_str = none) ∧
    ((w10.take 5).eat = none) ∧ ((w10.take 1).as_str = some ['a']) := by
  have hcv : w10.input.currentView = some (['a', 'b'], TokenKind.NoDash) := by decide
  have h5 := take_no_clamp w10 5
  have h1 := take_no_clamp w10 1
  refine ⟨h5.1, ?_, ?_, ?_⟩
  · exact ((h5.2.1 _ _ hcv).2 (by decide)).1
  · exact ((h5.2.1 _ _ hcv).2 (by decide)).2
  · exact ((h1.2.1 _ _ hcv).1 (by decide) (by decide)).1

end Palex
